import Mathlib

/-! Shallow embedding of the GPU tile-cooperative primitives of
`ParallelSTL_AMP_experimental/AMP_sort/AMP_helpers.hpp`: the binary-tree
`reduce`, the serial exclusive scans, the two-level bank-conflict-avoiding
`scan`, and the in-place stream `partition`.

Modelling conventions:
* A device-visible range is a total function `Nat -> M` and a pair of indices
  `f`, `l` delimiting the half-open interval of interest, exactly as the C++
  code works on iterator pairs.  In-place mutation becomes functional update.
* The value type is an arbitrary additive commutative monoid: the C++ code is
  templated over `T` and uses only `+=` and the zero `T()`.
* Tile-parallel loops whose lanes touch disjoint cells are serialised; the
  barriers of the source separate exactly the phases that are sequenced here.
* `tile_static` allocations are not cleared by the source, so every model
  function that allocates scratch receives the arbitrary previous contents of
  that scratch as an extra argument.
-/

namespace experimental

/-- Functional update of one cell of a range, the model of a store `a[i] = v`. -/
def write {α : Type*} (a : ℕ → α) (i : ℕ) (v : α) : ℕ → α :=
  fun j => if j = i then v else a j

/-- Loop of `serial_accumulate`: `while (f != l) init += *f++;` with the
iteration count `k = l - f` made explicit. -/
def accGo {M : Type*} [AddCommMonoid M] (a : ℕ → M) : ℕ → ℕ → M → M
  | _, 0, acc => acc
  | f, k + 1, acc => accGo a (f + 1) k (acc + a f)

/-- Model of the addition overload of `serial_accumulate(f, l, init)`. -/
def serial_accumulate {M : Type*} [AddCommMonoid M] (a : ℕ → M) (f l : ℕ) (init : M) : M :=
  if f ≥ l then init else accGo a f (l - f) init

/-- Loop of `serial_scan`: `while (f != l) { tmp = *f; *f++ = res; res += tmp; }`. -/
def scanGo {M : Type*} [AddCommMonoid M] : (ℕ → M) → ℕ → ℕ → M → (ℕ → M)
  | a, _, 0, _ => a
  | a, f, k + 1, res => scanGo (write a f res) (f + 1) k (res + a f)

/-- Model of the addition overload of `serial_scan(f, l)`: in-place exclusive
prefix sum seeded with `T()`, returning the new contents together with the
returned iterator (`l` on an empty range, `l - 1` otherwise). -/
def serial_scan {M : Type*} [AddCommMonoid M] (a : ℕ → M) (f l : ℕ) : (ℕ → M) × ℕ :=
  if f ≥ l then (a, l) else (scanGo a f (l - f) 0, l - 1)

/-- Loop of the `Op` overload of `serial_scan`. -/
def scanOpGo {β : Type*} (op : β → β → β) : (ℕ → β) → ℕ → ℕ → β → (ℕ → β)
  | a, _, 0, _ => a
  | a, f, k + 1, res => scanOpGo op (write a f res) (f + 1) k (op res (a f))

/-- Model of the `Op` overload of `serial_scan(f, l, op)`.  The C++ local
`typename std::iterator_traits<I>::value_type res;` is default-initialised,
which for the scalar value types this library instantiates leaves `res`
holding an indeterminate value; the model therefore takes that indeterminate
initial content as the explicit argument `junk`. -/
def serial_scan_op {β : Type*} (op : β → β → β) (junk : β) (a : ℕ → β) (f l : ℕ) :
    (ℕ → β) × ℕ :=
  if f ≥ l then (a, l) else (scanOpGo op a f (l - f) junk, l - 1)

/-- Model of `padded_cols(length, rows)`: the column count of the row/column
view, padded so that it is odd. -/
def padded_cols (length rows : ℕ) : ℕ :=
  if length / rows % 2 = 1 then length / rows else length / rows + 1

/-- One round of the binary-tree reduction over the range ending at `l`: each
index `i` of `[l - m, l)` receives `a i + a (i - m)`.  This is the net effect
of the lane loop performing `*(l - e - 1) += *(l - m - e - 1)` for every
`e < m` (writes land in `[l - m, l)`, reads come from the untouched cells
below `l - m`, so the parallel lanes are race-free). -/
def reduceRound {M : Type*} [AddCommMonoid M] (l m : ℕ) (a : ℕ → M) : ℕ → M :=
  fun i => if l - m ≤ i ∧ i < l then a i + a (i - m) else a i

/-- The `while (m) { round; m /= 2; }` loop of `reduce`, phrased with an
explicit fuel bounding the number of rounds; any fuel of at least `m`
suffices because `m` halves every round. -/
def reduceFuel {M : Type*} [AddCommMonoid M] (l : ℕ) : ℕ → ℕ → (ℕ → M) → (ℕ → M)
  | 0, _, a => a
  | _ + 1, 0, a => a
  | fuel + 1, m + 1, a => reduceFuel l fuel ((m + 1) / 2) (reduceRound l (m + 1) a)

/-- Model of `reduce(f, l, tidx)`, the binary-tree reduction: returns the new
contents and the returned iterator. -/
def reduce {M : Type*} [AddCommMonoid M] (a : ℕ → M) (f l : ℕ) : (ℕ → M) × ℕ :=
  if f ≥ l then (a, l) else (reduceFuel l (l - f) ((l - f) / 2) a, l - 1)

/-- Model of `reduce_rows<rows>(f, l, tidx)` (step I of the Dotsenko et al.
scan): lane `r` — present when `r` is below both the row count and the tile
width — serially sums row `r` of the `rows` by `padded_cols` view of `[f, l)`
into the freshly allocated scratch `row_sums`; `scr` is the arbitrary
previous content of that scratch, kept wherever no lane writes. -/
def reduce_rows {M : Type*} [AddCommMonoid M] (rows tileDim : ℕ) (a : ℕ → M)
    (f l : ℕ) (scr : ℕ → M) : ℕ → M :=
  fun r =>
    if r < rows ∧ r < tileDim then
      serial_accumulate a (f + r * padded_cols (l - f) rows)
        (min (f + (r + 1) * padded_cols (l - f) rows) l) 0
    else scr r

/-- Iteration count of the row-walking loop of `scan_rows`,
`while ((i != end(row)) && (i != l))`: starting from `beg` with `en` the
one-past-the-end of the row, the walk stops early at `l` exactly when `l`
lies inside the row. -/
def scanRowSteps (beg en l : ℕ) : ℕ :=
  if beg ≤ l ∧ l < en then l - beg else en - beg

/-- One row of `scan_rows`: the serial exclusive rescan of row `r`, seeded
with `row_sums[r]`. -/
def scanRowStep {M : Type*} [AddCommMonoid M] (rs : ℕ → M) (f l C : ℕ)
    (b : ℕ → M) (r : ℕ) : ℕ → M :=
  scanGo b (f + r * C) (scanRowSteps (f + r * C) (f + (r + 1) * C) l) (rs r)

/-- Model of `scan_rows<rows>(f, l, row_sums, tidx)` (step III of the paper):
every present lane `r` rewrites its row with the running exclusive sum seeded
by `row_sums[r]`.  Distinct rows occupy pairwise disjoint index intervals, so
the parallel lanes are serialised as a fold. -/
def scan_rows {M : Type*} [AddCommMonoid M] (rows tileDim : ℕ) (rs : ℕ → M)
    (a : ℕ → M) (f l : ℕ) : ℕ → M :=
  (List.range (min rows tileDim)).foldl (scanRowStep rs f l (padded_cols (l - f) rows)) a

/-- Model of `scan_sums(f, l, tidx)` (scanColumn of the paper): reduce the
eight rows of `[f, l)`, let lane 0 serially exclusive-scan the eight row sums
in place, then rescan the rows seeded with the scanned sums.  `scr` is the
arbitrary previous content of the eight-slot scratch. -/
def scan_sums {M : Type*} [AddCommMonoid M] (tileDim : ℕ) (a : ℕ → M)
    (f l : ℕ) (scr : ℕ → M) : ℕ → M :=
  scan_rows 8 tileDim (serial_scan (reduce_rows 8 tileDim a f l scr) 0 8).1 a f l

/-- Model of the tiled `scan(f, l, tidx)` entry point: row-reduce with
`rows = tile_dim0 < 64 ? tile_dim0 : 64`, scan the row sums with
`scan_sums`, rescan the rows, and return the new contents together with the
returned iterator.  `scr1` and `scr2` are the arbitrary previous contents of
the two scratch allocations. -/
def scan {M : Type*} [AddCommMonoid M] (tileDim : ℕ) (a : ℕ → M) (f l : ℕ)
    (scr1 scr2 : ℕ → M) : (ℕ → M) × ℕ :=
  if f ≥ l then (a, l)
  else
    (scan_rows (min tileDim 64) tileDim
      (scan_sums tileDim (reduce_rows (min tileDim 64) tileDim a f l scr1) 0
        (min tileDim 64) scr2)
      a f l, l - 1)

/-- The tile width `SIMD_w` the partition kernel is compiled with. -/
def SIMD_w : ℕ := 64

/-- State of one `partition` launch: the contents of the destination sequence
(a 0-based view of the range) together with the two cursors of the atomic
counter pair, `counters.first` (`tc`, growing forward from `0`) and
`counters.second` (`fc`, shrinking backward from the length). -/
structure PartState (α : Type*) where
  out : ℕ → α
  tc : ℕ
  fc : ℕ

/-- Value loaded by lane `j` of tile `g`: the element at global index
`SIMD_w * g + j` when that index is in range, the default `T()` otherwise. -/
def tileTmp {α : Type*} [Inhabited α] (b : ℕ → α) (n g j : ℕ) : α :=
  if SIMD_w * g + j < n then b (SIMD_w * g + j) else default

/-- Flag `p_true[j]` as written by lane `j` of tile `g` before the scans. -/
def tileFlagT {α : Type*} [Inhabited α] (p : α → Bool) (b : ℕ → α) (n g j : ℕ) : ℕ :=
  if SIMD_w * g + j < n then (if p (tileTmp b n g j) then 1 else 0) else 0

/-- Flag `p_false[j]` as written by lane `j` of tile `g` before the scans. -/
def tileFlagF {α : Type*} [Inhabited α] (p : α → Bool) (b : ℕ → α) (n g j : ℕ) : ℕ :=
  if SIMD_w * g + j < n then (if p (tileTmp b n g j) then 0 else 1) else 0

/-- Contents of `p_true` after `scan(begin(p_true), end(p_true), tidx)`. -/
def tileScanT {α : Type*} [Inhabited α] (p : α → Bool) (b : ℕ → α) (n g : ℕ)
    (scr : ℕ → ℕ) : ℕ → ℕ :=
  (scan SIMD_w (tileFlagT p b n g) 0 SIMD_w scr scr).1

/-- Contents of `p_false` after `scan(begin(p_false), end(p_false), tidx)`. -/
def tileScanF {α : Type*} [Inhabited α] (p : α → Bool) (b : ℕ → α) (n g : ℕ)
    (scr : ℕ → ℕ) : ℕ → ℕ :=
  (scan SIMD_w (tileFlagF p b n g) 0 SIMD_w scr scr).1

/-- Amount lane `SIMD_w - 1` of tile `g` adds to `trueCursor`:
`p_true[SIMD_w - 1] + (valid ? p(tmp) : 0)`. -/
def tileTrueOff {α : Type*} [Inhabited α] (p : α → Bool) (b : ℕ → α) (n g : ℕ)
    (scr : ℕ → ℕ) : ℕ :=
  tileScanT p b n g scr (SIMD_w - 1) + tileFlagT p b n g (SIMD_w - 1)

/-- Amount lane `SIMD_w - 1` of tile `g` subtracts from `falseCursor`:
`p_false[SIMD_w - 1] + (valid ? !p(tmp) : 0)`. -/
def tileFalseOff {α : Type*} [Inhabited α] (p : α → Bool) (b : ℕ → α) (n g : ℕ)
    (scr : ℕ → ℕ) : ℕ :=
  tileScanF p b n g scr (SIMD_w - 1) + tileFlagF p b n g (SIMD_w - 1)

/-- Effect of one tile of the `partition` kernel on the shared state: the two
flag scans, the two cursor reservations performed by the last lane, and the
two guarded write passes at `true_idx + p_true[local]` resp.
`false_idx + p_false[local]`.  The model lets every tile read the original
contents `b` and serialises the tiles in tile order.  For the cursor
arithmetic and the reservation intervals this serialisation is exact (the
counters are atomic and each leader reserves once on each); for the data
movement it is an idealisation: the source acquires only the base block's
lock of each reserved run (`acquire_block(blocks, tidx, true_idx / SIMD_w)`),
so a run straddling a block boundary can in fact overwrite the neighbouring
block before that block's owner has loaded it — see `C1_lock_straddle`. -/
def partitionTile {α : Type*} [Inhabited α] (p : α → Bool) (b : ℕ → α) (n : ℕ)
    (scr : ℕ → ℕ) (g : ℕ) (s : PartState α) : PartState α :=
  let pt := tileScanT p b n g scr
  let pf := tileScanF p b n g scr
  let true_idx := s.tc
  let false_idx := s.fc - tileFalseOff p b n g scr
  let out1 := (List.range SIMD_w).foldl
    (fun o j =>
      if SIMD_w * g + j < n then
        if p (tileTmp b n g j) then write o (true_idx + pt j) (tileTmp b n g j) else o
      else o)
    s.out
  let out2 := (List.range SIMD_w).foldl
    (fun o j =>
      if SIMD_w * g + j < n then
        if p (tileTmp b n g j) then o else write o (false_idx + pf j) (tileTmp b n g j)
      else o)
    out1
  ⟨out2, s.tc + tileTrueOff p b n g scr, s.fc - tileFalseOff p b n g scr⟩

/-- Shared state after the first `g` tiles of the kernel have completed: the
range initially holds `b` and the counter pair starts at `(0, n)`. -/
def partStates {α : Type*} [Inhabited α] (p : α → Bool) (b : ℕ → α) (n : ℕ)
    (scr : ℕ → ℕ) : ℕ → PartState α
  | 0 => ⟨b, 0, n⟩
  | g + 1 => partitionTile p b n scr g (partStates p b n scr g)

/-- Number of tiles of the padded launch domain covering `n` elements. -/
def numTiles (n : ℕ) : ℕ := (n + (SIMD_w - 1)) / SIMD_w

/-- Model of `partition(f, l, p)`: the new contents of the sequence together
with the returned iterator `f + counters.first`.  `scr` models the arbitrary
starting contents of the tile-static scratch of the embedded flag scans.  The
lock table `blocks` of the source is not part of the state: the model keeps
only the data and the two cursors, so the source's lock-table reads — among
them the out-of-range `blocks(n / 64)` spin an empty run performs when its
cursor sits at `n` with `64 ∣ n` — have no counterpart here. -/
def partition {α : Type*} [Inhabited α] (p : α → Bool) (a : ℕ → α) (f l : ℕ)
    (scr : ℕ → ℕ) : (ℕ → α) × ℕ :=
  if f ≥ l then (a, l)
  else
    let s := partStates p (fun i => a (f + i)) (l - f) scr (numTiles (l - f))
    (fun i => if f ≤ i ∧ i < l then s.out (i - f) else a i, f + s.tc)

/-- The interval of output positions the `fetch_add` on `trueCursor` reserves
for tile `g`. -/
def trueBlock {α : Type*} [Inhabited α] (p : α → Bool) (b : ℕ → α) (n : ℕ)
    (scr : ℕ → ℕ) (g : ℕ) : Finset ℕ :=
  Finset.Ico (partStates p b n scr g).tc
    ((partStates p b n scr g).tc + tileTrueOff p b n g scr)

/-- The interval of output positions the `fetch_sub` on `falseCursor` reserves
for tile `g`. -/
def falseBlock {α : Type*} [Inhabited α] (p : α → Bool) (b : ℕ → α) (n : ℕ)
    (scr : ℕ → ℕ) (g : ℕ) : Finset ℕ :=
  Finset.Ico ((partStates p b n scr g).fc - tileFalseOff p b n g scr)
    (partStates p b n scr g).fc

/-- The worked example of the specification: the eight values
`3, 1, 4, 1, 5, 9, 2, 6` (zero beyond the range). -/
def exampleData : ℕ → ℕ :=
  fun i => [3, 1, 4, 1, 5, 9, 2, 6].getD i 0

/-- Observer: how many of the first `M` global indices are in range and
satisfy the predicate (the quantity `trueCursor` accumulates). -/
def cntT {α : Type*} (p : α → Bool) (b : ℕ → α) (n M : ℕ) : ℕ :=
  ∑ t ∈ Finset.range M, (if t < n ∧ p (b t) then 1 else 0)

/-- Observer: how many of the first `M` global indices are in range and fail
the predicate (the quantity `falseCursor` gives back). -/
def cntF {α : Type*} (p : α → Bool) (b : ℕ → α) (n M : ℕ) : ℕ :=
  ∑ t ∈ Finset.range M, (if t < n ∧ ¬ p (b t) then 1 else 0)

/-- Observer: the in-range elements among the first `M` indices that satisfy
the predicate, in their original order. -/
def keptT {α : Type*} (p : α → Bool) (b : ℕ → α) (n M : ℕ) : List α :=
  (List.range M).filterMap fun t => if t < n ∧ p (b t) then some (b t) else none

/-- Observer: the in-range elements among the first `M` indices that fail the
predicate, in their original order. -/
def keptF {α : Type*} (p : α → Bool) (b : ℕ → α) (n M : ℕ) : List α :=
  (List.range M).filterMap fun t => if t < n ∧ ¬ p (b t) then some (b t) else none

/-- Observer: the satisfying elements of tile `g`'s chunk, in order. -/
def keptTChunk {α : Type*} (p : α → Bool) (b : ℕ → α) (n g : ℕ) : List α :=
  (List.range' (SIMD_w * g) SIMD_w).filterMap
    fun t => if t < n ∧ p (b t) then some (b t) else none

/-- Observer: the non-satisfying elements of tile `g`'s chunk, in order. -/
def keptFChunk {α : Type*} (p : α → Bool) (b : ℕ → α) (n g : ℕ) : List α :=
  (List.range' (SIMD_w * g) SIMD_w).filterMap
    fun t => if t < n ∧ ¬ p (b t) then some (b t) else none

/-- Observer: the contents of the backward-growing false run after `g` tiles:
the chunks' non-satisfying elements, concatenated in reverse tile order. -/
def revFalse {α : Type*} (p : α → Bool) (b : ℕ → α) (n g : ℕ) : List α :=
  (((List.range g).map (keptFChunk p b n)).reverse).flatten

theorem write_self {α : Type*} (a : ℕ → α) (i : ℕ) (v : α) : write a i v i = v := by
  simp [write]

theorem write_other {α : Type*} (a : ℕ → α) {i j : ℕ} (v : α) (h : j ≠ i) :
    write a i v j = a j := by
  simp [write, h]

theorem accGo_spec {M : Type*} [AddCommMonoid M] (a : ℕ → M) :
    ∀ (k f : ℕ) (acc : M), accGo a f k acc = acc + ∑ t ∈ Finset.Ico f (f + k), a t := by
  intro k
  induction k with
  | zero => intro f acc; simp [accGo]
  | succ k ih =>
    intro f acc
    rw [accGo, ih, Finset.sum_eq_sum_Ico_succ_bot (by omega : f < f + (k + 1))]
    have h2 : f + 1 + k = f + (k + 1) := by omega
    rw [h2, add_assoc]

theorem serial_accumulate_spec {M : Type*} [AddCommMonoid M]
    (a : ℕ → M) (f l : ℕ) (init : M) :
    serial_accumulate a f l init = init + ∑ t ∈ Finset.Ico f l, a t := by
  unfold serial_accumulate
  by_cases h : f ≥ l
  · rw [if_pos h, Finset.Ico_eq_empty (by omega), Finset.sum_empty, add_zero]
  · rw [if_neg h, accGo_spec]
    have h2 : f + (l - f) = l := by omega
    rw [h2]

theorem scanGo_spec {M : Type*} [AddCommMonoid M] :
    ∀ (k : ℕ) (a : ℕ → M) (f : ℕ) (res : M) (i : ℕ),
      scanGo a f k res i =
        if f ≤ i ∧ i < f + k then res + ∑ t ∈ Finset.Ico f i, a t else a i := by
  intro k
  induction k with
  | zero =>
    intro a f res i
    rw [scanGo, if_neg (by omega)]
  | succ k ih =>
    intro a f res i
    rw [scanGo, ih]
    by_cases hi : i = f
    · subst hi
      rw [if_neg (by omega), if_pos (by omega), write_self, Finset.Ico_self,
        Finset.sum_empty, add_zero]
    · by_cases h2 : f + 1 ≤ i ∧ i < f + 1 + k
      · rw [if_pos h2, if_pos (by omega)]
        have hw : ∑ t ∈ Finset.Ico (f + 1) i, write a f res t =
            ∑ t ∈ Finset.Ico (f + 1) i, a t := by
          refine Finset.sum_congr rfl fun t ht => ?_
          rw [Finset.mem_Ico] at ht
          exact write_other a res (by omega)
        rw [hw, Finset.sum_eq_sum_Ico_succ_bot (by omega : f < i), ← add_assoc]
      · rw [if_neg h2, if_neg (by omega)]
        exact write_other a res (by omega)

theorem serial_scan_fst {M : Type*} [AddCommMonoid M]
    (a : ℕ → M) (f l : ℕ) (h : f < l) (i : ℕ) :
    (serial_scan a f l).1 i =
      if f ≤ i ∧ i < l then ∑ t ∈ Finset.Ico f i, a t else a i := by
  unfold serial_scan
  rw [if_neg (by omega)]
  show scanGo a f (l - f) 0 i = _
  rw [scanGo_spec]
  have h2 : f + (l - f) = l := by omega
  rw [h2]
  by_cases h3 : f ≤ i ∧ i < l
  · rw [if_pos h3, if_pos h3, zero_add]
  · rw [if_neg h3, if_neg h3]

theorem serial_scan_snd {M : Type*} [AddCommMonoid M] (a : ℕ → M) (f l : ℕ) (h : f < l) :
    (serial_scan a f l).2 = l - 1 := by
  unfold serial_scan
  rw [if_neg (by omega)]

theorem padded_cols_pos (length rows : ℕ) : 0 < padded_cols length rows := by
  unfold padded_cols
  generalize length / rows = q
  split <;> omega

theorem padded_cols_odd (length rows : ℕ) : padded_cols length rows % 2 = 1 := by
  unfold padded_cols
  generalize length / rows = q
  split <;> omega

theorem reduceFuel_zero {M : Type*} [AddCommMonoid M] (l fuel : ℕ) (a : ℕ → M) :
    reduceFuel l fuel 0 a = a := by
  cases fuel <;> rfl

theorem reduceFuel_step {M : Type*} [AddCommMonoid M] (l fuel m : ℕ) (a : ℕ → M)
    (h : m ≠ 0) :
    reduceFuel l (fuel + 1) m a = reduceFuel l fuel (m / 2) (reduceRound l m a) := by
  cases m with
  | zero => exact absurd rfl h
  | succ m => rfl

theorem reduceRound_sum {M : Type*} [AddCommMonoid M] (a : ℕ → M) (l P : ℕ)
    (h2 : P + P ≤ l) :
    ∑ t ∈ Finset.Ico (l - P) l, reduceRound l P a t =
      ∑ t ∈ Finset.Ico (l - (P + P)) l, a t := by
  have hsplit : ∀ t ∈ Finset.Ico (l - P) l,
      reduceRound l P a t = a t + a (t - P) := by
    intro t ht
    rw [Finset.mem_Ico] at ht
    simp only [reduceRound]
    rw [if_pos (by omega)]
  rw [Finset.sum_congr rfl hsplit, Finset.sum_add_distrib]
  have hshift : (∑ t ∈ Finset.Ico (l - P) l, a (t - P)) =
      ∑ t ∈ Finset.Ico (l - (P + P)) (l - P), a t := by
    rw [Finset.sum_Ico_eq_sum_range, Finset.sum_Ico_eq_sum_range]
    have e1 : l - (l - P) = P := by omega
    have e2 : l - P - (l - (P + P)) = P := by omega
    rw [e1, e2]
    refine Finset.sum_congr rfl fun i hi => ?_
    rw [Finset.mem_range] at hi
    congr 1
    omega
  rw [hshift, add_comm, Finset.sum_Ico_consecutive _ (by omega) (by omega)]

theorem reduceFuel_pow2 {M : Type*} [AddCommMonoid M] (l : ℕ) :
    ∀ (j fuel : ℕ) (a : ℕ → M), j < fuel → 2 ^ (j + 1) ≤ l →
      reduceFuel l fuel (2 ^ j) a (l - 1) = ∑ t ∈ Finset.Ico (l - 2 ^ (j + 1)) l, a t := by
  intro j
  induction j with
  | zero =>
    intro fuel a hfuel hl
    have hp : (2 : ℕ) ^ (0 + 1) = 2 := by norm_num
    rw [hp] at hl ⊢
    obtain ⟨fuel, rfl⟩ : ∃ u, fuel = u + 1 := ⟨fuel - 1, by omega⟩
    rw [pow_zero, reduceFuel_step l fuel 1 a one_ne_zero]
    have hd : (1 : ℕ) / 2 = 0 := by norm_num
    rw [hd, reduceFuel_zero]
    simp only [reduceRound]
    rw [if_pos (by omega)]
    rw [Finset.sum_eq_sum_Ico_succ_bot (by omega : l - 2 < l)]
    have h3 : l - 2 + 1 = l - 1 := by omega
    rw [h3, Finset.sum_eq_sum_Ico_succ_bot (by omega : l - 1 < l)]
    have h5 : l - 1 + 1 = l := by omega
    rw [h5, Finset.Ico_self, Finset.sum_empty, add_zero]
    have h4 : l - 1 - 1 = l - 2 := by omega
    rw [h4, add_comm]
  | succ j ih =>
    intro fuel a hfuel hl
    obtain ⟨fuel, rfl⟩ : ∃ u, fuel = u + 1 := ⟨fuel - 1, by omega⟩
    have hpos : (2 : ℕ) ^ (j + 1) ≠ 0 := by positivity
    have hP : (2 : ℕ) ^ (j + 1 + 1) = 2 ^ (j + 1) + 2 ^ (j + 1) := by
      rw [pow_succ, mul_two]
    have hle : (2 : ℕ) ^ (j + 1) ≤ l := by
      refine le_trans ?_ hl
      rw [hP]
      exact Nat.le_add_right _ _
    rw [reduceFuel_step l fuel (2 ^ (j + 1)) a hpos]
    have hdiv : 2 ^ (j + 1) / 2 = 2 ^ j := by
      rw [pow_succ, Nat.mul_div_cancel _ (by norm_num)]
    rw [hdiv, ih fuel (reduceRound l (2 ^ (j + 1)) a) (Nat.lt_of_succ_lt_succ hfuel) hle]
    rw [reduceRound_sum a l (2 ^ (j + 1)) (by rw [← hP]; exact hl), hP]

/-- C2 fails as stated: on the length-3 range holding `1, 1, 1` the binary-tree
`reduce` leaves `2` in the last slot, not the arithmetic sum `3` of all
original elements (when the length is not a power of two some cells, here the
one at index `0`, are never folded in). -/
theorem C2_counterexample :
    (reduce (fun _ => (1 : ℕ)) 0 3).1 2 = 2 ∧
      ((reduce (fun _ => (1 : ℕ)) 0 3).1 2 ≠ ∑ t ∈ Finset.Ico 0 3, (1 : ℕ)) := by
  constructor
  · rfl
  · decide

/-- C2 amended: on every non-empty range the iterator `reduce` returns refers
to the range's last slot, and whenever the range's length is a power of two
that slot moreover holds, after the call, the arithmetic sum of all of the
range's original elements. -/
theorem C2_reduce_pow2 {M : Type*} [AddCommMonoid M] (a : ℕ → M) (f l : ℕ)
    (hfl : f < l) :
    (reduce a f l).2 = l - 1 ∧
      ∀ k, l - f = 2 ^ k →
        (reduce a f l).1 (l - 1) = ∑ t ∈ Finset.Ico f l, a t := by
  unfold reduce
  rw [if_neg (by omega)]
  refine ⟨rfl, ?_⟩
  intro k hlen
  show reduceFuel l (l - f) ((l - f) / 2) a (l - 1) = _
  cases k with
  | zero =>
    have h1 : l - f = 1 := by rw [hlen]; norm_num
    clear hlen
    have h2 : (l - f) / 2 = 0 := by omega
    rw [h2, reduceFuel_zero]
    have h3 : l - 1 = f := by omega
    rw [h3, Finset.sum_Ico_eq_sum_range, h1, Finset.sum_range_one, add_zero]
  | succ k =>
    have hfuel : k < l - f := by
      rw [hlen]
      calc k < 2 ^ k := Nat.lt_two_pow k
        _ ≤ 2 ^ (k + 1) := Nat.pow_le_pow_right (by norm_num) (by omega)
    have hle : 2 ^ (k + 1) ≤ l := by
      rw [← hlen]
      exact Nat.sub_le l f
    have h4 : l - 2 ^ (k + 1) = f := by
      rw [← hlen]
      omega
    have hdiv : (l - f) / 2 = 2 ^ k := by
      rw [hlen, pow_succ, Nat.mul_div_cancel _ (by norm_num)]
    rw [hdiv, reduceFuel_pow2 l k (l - f) a hfuel hle, h4]

/-- C2 witness: the amended statement at the concrete power-of-two range
`[0, 4)` holding four ones. -/
theorem C2_witness :
    0 < 4 ∧ 4 - 0 = 2 ^ 2 ∧
      ((reduce (fun _ => (1 : ℕ)) 0 4).2 = 4 - 1 ∧
        (reduce (fun _ => (1 : ℕ)) 0 4).1 (4 - 1) = ∑ t ∈ Finset.Ico 0 4, (1 : ℕ)) :=
  ⟨by decide, by decide, (C2_reduce_pow2 (fun _ => (1 : ℕ)) 0 4 (by decide)).1,
    (C2_reduce_pow2 (fun _ => (1 : ℕ)) 0 4 (by decide)).2 2 (by decide)⟩

/-- C5: the `Op` overload of `serial_scan` takes no identity argument and
leaves its accumulator `res` default-initialised; whatever indeterminate
value the accumulator starts with (here `1`) is written to position `0` and
folded into every later cell, so the claimed law `output[0] = e` for a
caller-supplied identity (`0` for addition) fails. -/
theorem C5_uninitialised_accumulator :
    (serial_scan_op (fun x y => x + y) 1 (fun _ => (5 : ℕ)) 0 1).1 0 = 1 ∧ (1 : ℕ) ≠ 0 := by
  constructor
  · rfl
  · decide

/-- C7: for every `length` and every `rows > 0`, `padded_cols` returns an odd
number, hence one co-prime with the bank count 32 of the fast scratch: the
integer quotient `length / rows` itself when that quotient is odd, and the
quotient plus one when it is even (also when it is zero). -/
theorem C7_padded_cols (length rows : ℕ) (hrows : 0 < rows) :
    padded_cols length rows % 2 = 1 ∧
      Nat.Coprime (padded_cols length rows) 32 ∧
      (length / rows % 2 = 1 → padded_cols length rows = length / rows) ∧
      (length / rows % 2 = 0 → padded_cols length rows = length / rows + 1) := by
  refine ⟨padded_cols_odd length rows, ?_, ?_, ?_⟩
  · have hodd : padded_cols length rows % 2 = 1 := padded_cols_odd length rows
    have h2 : Nat.Coprime (padded_cols length rows) 2 := by
      rw [Nat.coprime_two_right, Nat.odd_iff]
      exact hodd
    have h32 : (32 : ℕ) = 2 ^ 5 := by norm_num
    rw [h32]
    exact h2.pow_right 5
  · intro h
    unfold padded_cols
    rw [if_pos h]
  · intro h
    unfold padded_cols
    generalize hq : length / rows = q
    rw [hq] at h
    rw [if_neg (by omega)]

/-- C7 witness: the concrete instance `length = 10`, `rows = 4`, whose natural
quotient `2` is even and is padded to `3`. -/
theorem C7_witness :
    0 < 4 ∧ (padded_cols 10 4 % 2 = 1 ∧
      Nat.Coprime (padded_cols 10 4) 32 ∧
      (10 / 4 % 2 = 1 → padded_cols 10 4 = 10 / 4) ∧
      (10 / 4 % 2 = 0 → padded_cols 10 4 = 10 / 4 + 1)) :=
  ⟨by decide, C7_padded_cols 10 4 (by decide)⟩

theorem padded_cols_of_lt (L R : ℕ) (h : L < R) : padded_cols L R = 1 := by
  unfold padded_cols
  rw [Nat.div_eq_of_lt h]
  rfl

theorem reduce_rows_spec {M : Type*} [AddCommMonoid M] (rows tileDim : ℕ) (a : ℕ → M)
    (f l : ℕ) (scr : ℕ → M) (r : ℕ) :
    reduce_rows rows tileDim a f l scr r =
      if r < rows ∧ r < tileDim then
        ∑ t ∈ Finset.Ico (f + r * padded_cols (l - f) rows)
          (min (f + (r + 1) * padded_cols (l - f) rows) l), a t
      else scr r := by
  unfold reduce_rows
  split
  · rw [serial_accumulate_spec, zero_add]
  · rfl

theorem segment_sum_prefix_sum {M : Type*} [AddCommMonoid M] (a : ℕ → M) (f l C : ℕ) :
    ∀ r : ℕ,
      (∑ j ∈ Finset.range r,
          ∑ t ∈ Finset.Ico (f + j * C) (min (f + (j + 1) * C) l), a t) =
        ∑ t ∈ Finset.Ico f (min (f + r * C) l), a t := by
  intro r
  induction r with
  | zero =>
    rw [Finset.sum_range_zero, Nat.zero_mul, Nat.add_zero]
    by_cases h : f ≤ l
    · rw [min_eq_left h, Finset.Ico_self, Finset.sum_empty]
    · have hm : min f l = l := min_eq_right (by omega)
      have he : Finset.Ico f l = ∅ := Finset.Ico_eq_empty (by omega)
      rw [hm, he, Finset.sum_empty]
  | succ r ih =>
    rw [Finset.sum_range_succ, ih]
    have hmul : f + (r + 1) * C = f + r * C + C := by ring
    by_cases h : f + r * C ≤ l
    · rw [min_eq_left h]
      by_cases h2 : f + (r + 1) * C ≤ l
      · rw [min_eq_left h2]
        exact Finset.sum_Ico_consecutive a (by omega) (by omega)
      · have hm2 : min (f + (r + 1) * C) l = l := min_eq_right (by omega)
        rw [hm2]
        exact Finset.sum_Ico_consecutive a (by omega) h
    · have hm1 : min (f + r * C) l = l := min_eq_right (by omega)
      have hm2 : min (f + (r + 1) * C) l = l := min_eq_right (by omega)
      have he : Finset.Ico (f + r * C) l = ∅ := Finset.Ico_eq_empty (by omega)
      rw [hm1, hm2, he, Finset.sum_empty, add_zero]

theorem scanRowStep_apply {M : Type*} [AddCommMonoid M] (rs : ℕ → M) (f l C : ℕ)
    (b : ℕ → M) (r i : ℕ) :
    scanRowStep rs f l C b r i =
      if f + r * C ≤ i ∧
          i < f + r * C + scanRowSteps (f + r * C) (f + (r + 1) * C) l then
        rs r + ∑ t ∈ Finset.Ico (f + r * C) i, b t
      else b i := by
  unfold scanRowStep
  rw [scanGo_spec]

theorem scanRowStep_foldl {M : Type*} [AddCommMonoid M] (a : ℕ → M) (f l C : ℕ)
    (rs : ℕ → M) :
    ∀ m : ℕ,
      (∀ r, r < m → rs r = ∑ t ∈ Finset.Ico f (min (f + r * C) l), a t) →
      ∀ i : ℕ, i < l →
        ((List.range m).foldl (scanRowStep rs f l C) a) i =
          if f ≤ i ∧ i < min (f + m * C) l then ∑ t ∈ Finset.Ico f i, a t else a i := by
  intro m
  induction m with
  | zero =>
    intro _ i hil
    rw [List.range_zero, List.foldl_nil]
    have hmin : min (f + 0 * C) l ≤ f := by
      rw [Nat.zero_mul, Nat.add_zero]
      exact min_le_left f l
    rw [if_neg (by omega)]
  | succ m ih =>
    intro hseed i hil
    have hbi := ih fun r hr => hseed r (by omega)
    rw [List.range_succ, List.foldl_append, List.foldl_cons, List.foldl_nil,
      scanRowStep_apply]
    have hmul : f + (m + 1) * C = f + m * C + C := by ring
    by_cases hA : l ≤ f + m * C
    · have hm1 : min (f + m * C) l = l := min_eq_right hA
      have hm2 : min (f + (m + 1) * C) l = l := min_eq_right (by omega)
      rw [if_neg (by omega), hbi i hil, hm1, hm2]
    · push_neg at hA
      have hm1 : min (f + m * C) l = f + m * C := min_eq_left (by omega)
      have hbeg : f + m * C ≤ min (f + (m + 1) * C) l := le_min (by omega) (by omega)
      have hwin : f + m * C + scanRowSteps (f + m * C) (f + (m + 1) * C) l =
          min (f + (m + 1) * C) l := by
        unfold scanRowSteps
        by_cases hB : l < f + (m + 1) * C
        · have hm2 : min (f + (m + 1) * C) l = l := min_eq_right (by omega)
          rw [if_pos ⟨by omega, hB⟩, hm2]
          omega
        · have hm2 : min (f + (m + 1) * C) l = f + (m + 1) * C := min_eq_left (by omega)
          rw [if_neg (by omega), hm2]
          omega
      rw [hwin]
      by_cases hin : f + m * C ≤ i ∧ i < min (f + (m + 1) * C) l
      · rw [if_pos hin, if_pos ⟨by omega, hin.2⟩]
        have hsb : (∑ t ∈ Finset.Ico (f + m * C) i,
            List.foldl (scanRowStep rs f l C) a (List.range m) t) =
            ∑ t ∈ Finset.Ico (f + m * C) i, a t := by
          refine Finset.sum_congr rfl fun t ht => ?_
          rw [Finset.mem_Ico] at ht
          rw [hbi t (by omega), if_neg (by rw [hm1]; omega)]
        rw [hsb, hseed m (Nat.lt_succ_self m), hm1]
        exact Finset.sum_Ico_consecutive a (by omega) (by omega)
      · rw [if_neg hin, hbi i hil, hm1]
        by_cases hio : i < f + m * C
        · have hlt : i < min (f + (m + 1) * C) l := by omega
          by_cases hfi2 : f ≤ i
          · rw [if_pos ⟨hfi2, hio⟩, if_pos ⟨hfi2, hlt⟩]
          · rw [if_neg (by tauto), if_neg (by tauto)]
        · rw [if_neg (by omega), if_neg (by omega)]

theorem scan_rows_spec {M : Type*} [AddCommMonoid M] (rows tileDim : ℕ) (rs a : ℕ → M)
    (f l : ℕ)
    (hseed : ∀ r, r < min rows tileDim →
      rs r = ∑ t ∈ Finset.Ico f (min (f + r * padded_cols (l - f) rows) l), a t)
    (hcov : l ≤ f + min rows tileDim * padded_cols (l - f) rows) :
    ∀ i, f ≤ i → i < l → scan_rows rows tileDim rs a f l i = ∑ t ∈ Finset.Ico f i, a t := by
  intro i hfi hil
  unfold scan_rows
  rw [scanRowStep_foldl a f l (padded_cols (l - f) rows) rs (min rows tileDim) hseed i hil]
  have hm : min (f + min rows tileDim * padded_cols (l - f) rows) l = l :=
    min_eq_right hcov
  rw [hm, if_pos ⟨hfi, hil⟩]

theorem scan_sums_spec {M : Type*} [AddCommMonoid M] (tileDim R : ℕ) (rs scr : ℕ → M)
    (hRt : R ≤ tileDim) (hR8 : R ≤ 8 * padded_cols R 8) :
    ∀ q, q < R → scan_sums tileDim rs 0 R scr q = ∑ j ∈ Finset.Ico 0 q, rs j := by
  have hsub : R - 0 = R := Nat.sub_zero R
  intro q hq
  unfold scan_sums
  refine scan_rows_spec 8 tileDim _ rs 0 R ?_ ?_ q (Nat.zero_le q) hq
  · intro r hr
    have hr8 : r < 8 := lt_of_lt_of_le hr (min_le_left _ _)
    rw [serial_scan_fst _ 0 8 (by omega) r, if_pos ⟨Nat.zero_le r, hr8⟩]
    have hconv : ∀ j ∈ Finset.Ico 0 r,
        reduce_rows 8 tileDim rs 0 R scr j =
          ∑ t ∈ Finset.Ico (0 + j * padded_cols (R - 0) 8)
            (min (0 + (j + 1) * padded_cols (R - 0) 8) R), rs t := by
      intro j hj
      rw [Finset.mem_Ico] at hj
      have hjm : j < min 8 tileDim := lt_of_lt_of_le hj.2 (le_of_lt hr)
      rw [reduce_rows_spec,
        if_pos ⟨lt_of_lt_of_le hjm (min_le_left _ _), lt_of_lt_of_le hjm (min_le_right _ _)⟩]
    have hseg := segment_sum_prefix_sum rs 0 R (padded_cols (R - 0) 8) r
    rw [Finset.range_eq_Ico] at hseg
    rw [Finset.sum_congr rfl hconv]
    exact hseg
  · by_cases h8 : 8 ≤ tileDim
    · rw [min_eq_left h8, hsub]
      omega
    · rw [min_eq_right (by omega), hsub, padded_cols_of_lt R 8 (by omega)]
      omega

theorem scan_spec {M : Type*} [AddCommMonoid M] (tileDim : ℕ) (a scr1 scr2 : ℕ → M)
    (f l : ℕ) (hfl : f < l)
    (hcov : l - f ≤ min tileDim 64 * padded_cols (l - f) (min tileDim 64))
    (hR8 : min tileDim 64 ≤ 8 * padded_cols (min tileDim 64) 8) :
    (∀ i, f ≤ i → i < l →
      (scan tileDim a f l scr1 scr2).1 i = ∑ t ∈ Finset.Ico f i, a t) ∧
      (scan tileDim a f l scr1 scr2).2 = l - 1 := by
  unfold scan
  rw [if_neg (by omega)]
  have hmm : min (min tileDim 64) tileDim = min tileDim 64 :=
    min_eq_left (min_le_left tileDim 64)
  refine ⟨?_, rfl⟩
  intro i hfi hil
  show scan_rows (min tileDim 64) tileDim _ a f l i = _
  refine scan_rows_spec (min tileDim 64) tileDim _ a f l ?_ ?_ i hfi hil
  · intro r hr
    rw [hmm] at hr
    rw [scan_sums_spec tileDim (min tileDim 64) _ scr2 (min_le_left tileDim 64) hR8 r hr]
    have hconv : ∀ j ∈ Finset.Ico 0 r,
        reduce_rows (min tileDim 64) tileDim a f l scr1 j =
          ∑ t ∈ Finset.Ico (f + j * padded_cols (l - f) (min tileDim 64))
            (min (f + (j + 1) * padded_cols (l - f) (min tileDim 64)) l), a t := by
      intro j hj
      rw [Finset.mem_Ico] at hj
      have hjr : j < min tileDim 64 := lt_trans hj.2 hr
      rw [reduce_rows_spec, if_pos ⟨hjr, lt_of_lt_of_le hjr (min_le_left tileDim 64)⟩]
    have hseg := segment_sum_prefix_sum a f l (padded_cols (l - f) (min tileDim 64)) r
    rw [Finset.range_eq_Ico] at hseg
    rw [Finset.sum_congr rfl hconv]
    exact hseg
  · rw [hmm]
    omega

/-- C3 fails as stated for ranges the row tiling does not cover: with group
size 8, on the nine-element range of ones the row view has `C = 1` and the
eight rows only cover indices `0` to `7`, so position `8` keeps its original
value `1` instead of the exclusive prefix sum `8`. -/
theorem C3_counterexample :
    (scan 8 (fun _ => (1 : ℕ)) 0 9 (fun _ => 0) (fun _ => 0)).1 8 = 1 ∧
      (∑ t ∈ Finset.Ico 0 8, (1 : ℕ)) = 8 ∧ (1 : ℕ) ≠ 8 :=
  ⟨by decide, by decide, by decide⟩

/-- C3 amended: on every non-empty range whose length the row decomposition
covers — `l - f <= R * padded_cols (l - f) R` with `R = min(group size, 64)`,
which holds in particular whenever the length equals a power-of-two group
size — the tiled addition scan leaves in every position `i` the exclusive
prefix sum of the elements before `i`, position `f` receiving `0`; the
spec's worked example (group size 8, data `3 1 4 1 5 9 2 6`) is an instance,
exercised by the witness. -/
theorem C3_scan_exclusive_law {M : Type*} [AddCommMonoid M] (tileDim : ℕ)
    (a scr1 scr2 : ℕ → M) (f l : ℕ) (hfl : f < l)
    (hcov : l - f ≤ min tileDim 64 * padded_cols (l - f) (min tileDim 64))
    (hR8 : min tileDim 64 ≤ 8 * padded_cols (min tileDim 64) 8) :
    ∀ i, f ≤ i → i < l →
      (scan tileDim a f l scr1 scr2).1 i = ∑ t ∈ Finset.Ico f i, a t :=
  (scan_spec tileDim a scr1 scr2 f l hfl hcov hR8).1

/-- C3 witness: the amended law at the spec's example — group size 8, data
`3 1 4 1 5 9 2 6` — evaluated at position 5, whose exclusive prefix sum is
`3 + 1 + 4 + 1 + 5 = 14`. -/
theorem C3_witness :
    0 < 8 ∧ 8 - 0 ≤ min 8 64 * padded_cols (8 - 0) (min 8 64) ∧
      min 8 64 ≤ 8 * padded_cols (min 8 64) 8 ∧
      (scan 8 exampleData 0 8 (fun _ => 0) (fun _ => 0)).1 5 =
        ∑ t ∈ Finset.Ico 0 5, exampleData t :=
  ⟨by decide, by decide, by decide,
    C3_scan_exclusive_law 8 exampleData (fun _ => 0) (fun _ => 0) 0 8 (by decide)
      (by decide) (by decide) 5 (by decide) (by decide)⟩

/-- C4 fails as stated: on the spec's own example the slot referenced by the
iterator `scan` returns holds `25`, the exclusive prefix sum of the first
seven elements, not the sum `31` of all of the range's original elements. -/
theorem C4_counterexample :
    (scan 8 exampleData 0 8 (fun _ => 0) (fun _ => 0)).1
        ((scan 8 exampleData 0 8 (fun _ => 0) (fun _ => 0)).2) = 25 ∧
      (∑ t ∈ Finset.Ico 0 8, exampleData t) = 31 ∧ (25 : ℕ) ≠ 31 :=
  ⟨by decide, by decide, by decide⟩

/-- C4 amended: for every non-empty range, `serial_scan` (and, under the row
coverage conditions, `scan`) returns an iterator to the last slot, and that
slot holds the sum of all of the range's original elements except the last
one — so re-adding the original last element recovers the full total. -/
theorem C4_scan_last_slot {M : Type*} [AddCommMonoid M] (tileDim : ℕ)
    (a scr1 scr2 : ℕ → M) (f l : ℕ) (hfl : f < l)
    (hcov : l - f ≤ min tileDim 64 * padded_cols (l - f) (min tileDim 64))
    (hR8 : min tileDim 64 ≤ 8 * padded_cols (min tileDim 64) 8) :
    (serial_scan a f l).2 = l - 1 ∧
      (serial_scan a f l).1 (l - 1) = ∑ t ∈ Finset.Ico f (l - 1), a t ∧
      (scan tileDim a f l scr1 scr2).2 = l - 1 ∧
      (scan tileDim a f l scr1 scr2).1 (l - 1) = ∑ t ∈ Finset.Ico f (l - 1), a t := by
  refine ⟨serial_scan_snd a f l hfl, ?_,
    (scan_spec tileDim a scr1 scr2 f l hfl hcov hR8).2, ?_⟩
  · rw [serial_scan_fst a f l hfl (l - 1), if_pos ⟨by omega, by omega⟩]
  · exact (scan_spec tileDim a scr1 scr2 f l hfl hcov hR8).1 (l - 1) (by omega) (by omega)

/-- C4 witness: the amended statement at the spec's example, where the
returned slot holds `25` and the skipped last element is `6`. -/
theorem C4_witness :
    0 < 8 ∧ 8 - 0 ≤ min 8 64 * padded_cols (8 - 0) (min 8 64) ∧
      min 8 64 ≤ 8 * padded_cols (min 8 64) 8 ∧
      ((serial_scan exampleData 0 8).2 = 8 - 1 ∧
        (serial_scan exampleData 0 8).1 (8 - 1) = ∑ t ∈ Finset.Ico 0 (8 - 1), exampleData t ∧
        (scan 8 exampleData 0 8 (fun _ => 0) (fun _ => 0)).2 = 8 - 1 ∧
        (scan 8 exampleData 0 8 (fun _ => 0) (fun _ => 0)).1 (8 - 1) =
          ∑ t ∈ Finset.Ico 0 (8 - 1), exampleData t) :=
  ⟨by decide, by decide, by decide,
    C4_scan_last_slot 8 exampleData (fun _ => 0) (fun _ => 0) 0 8 (by decide) (by decide)
      (by decide)⟩

theorem tileFlagT_eq {α : Type*} [Inhabited α] (p : α → Bool) (b : ℕ → α) (n g j : ℕ) :
    tileFlagT p b n g j =
      (if SIMD_w * g + j < n ∧ p (b (SIMD_w * g + j)) then 1 else 0) := by
  unfold tileFlagT tileTmp
  by_cases h : SIMD_w * g + j < n
  · simp only [if_pos h]
    by_cases h2 : p (b (SIMD_w * g + j))
    · rw [if_pos h2, if_pos ⟨h, h2⟩]
    · rw [if_neg h2, if_neg (by tauto)]
  · rw [if_neg h, if_neg (by tauto)]

theorem tileFlagF_eq {α : Type*} [Inhabited α] (p : α → Bool) (b : ℕ → α) (n g j : ℕ) :
    tileFlagF p b n g j =
      (if SIMD_w * g + j < n ∧ ¬ p (b (SIMD_w * g + j)) then 1 else 0) := by
  unfold tileFlagF tileTmp
  by_cases h : SIMD_w * g + j < n
  · simp only [if_pos h]
    by_cases h2 : p (b (SIMD_w * g + j))
    · rw [if_pos h2, if_neg (by tauto)]
    · rw [if_neg h2, if_pos ⟨h, h2⟩]
  · rw [if_neg h, if_neg (by tauto)]

theorem tileFlagT_eq_c {α : Type*} [Inhabited α] (p : α → Bool) (b : ℕ → α) (n g j : ℕ) :
    tileFlagT p b n g j =
      (if SIMD_w * g + j < n ∧ p (tileTmp b n g j) then 1 else 0) := by
  unfold tileFlagT
  by_cases h : SIMD_w * g + j < n
  · simp only [if_pos h]
    by_cases h2 : p (tileTmp b n g j)
    · rw [if_pos h2, if_pos ⟨h, h2⟩]
    · rw [if_neg h2, if_neg (by tauto)]
  · rw [if_neg h, if_neg (by tauto)]

theorem tileFlagF_eq_c {α : Type*} [Inhabited α] (p : α → Bool) (b : ℕ → α) (n g j : ℕ) :
    tileFlagF p b n g j =
      (if SIMD_w * g + j < n ∧ ¬ p (tileTmp b n g j) then 1 else 0) := by
  unfold tileFlagF
  by_cases h : SIMD_w * g + j < n
  · simp only [if_pos h]
    by_cases h2 : p (tileTmp b n g j)
    · rw [if_pos h2, if_neg (by tauto)]
    · rw [if_neg h2, if_pos ⟨h, h2⟩]
  · rw [if_neg h, if_neg (by tauto)]

theorem tileScanT_spec {α : Type*} [Inhabited α] (p : α → Bool) (b : ℕ → α) (n g : ℕ)
    (scr : ℕ → ℕ) :
    ∀ j, j < SIMD_w →
      tileScanT p b n g scr j = ∑ t ∈ Finset.range j, tileFlagT p b n g t := by
  intro j hj
  unfold tileScanT
  have h := (scan_spec SIMD_w (tileFlagT p b n g) scr scr 0 SIMD_w (by decide) (by decide)
    (by decide)).1 j (Nat.zero_le j) hj
  rw [h, Finset.range_eq_Ico]

theorem tileScanF_spec {α : Type*} [Inhabited α] (p : α → Bool) (b : ℕ → α) (n g : ℕ)
    (scr : ℕ → ℕ) :
    ∀ j, j < SIMD_w →
      tileScanF p b n g scr j = ∑ t ∈ Finset.range j, tileFlagF p b n g t := by
  intro j hj
  unfold tileScanF
  have h := (scan_spec SIMD_w (tileFlagF p b n g) scr scr 0 SIMD_w (by decide) (by decide)
    (by decide)).1 j (Nat.zero_le j) hj
  rw [h, Finset.range_eq_Ico]

theorem tileTrueOff_eq {α : Type*} [Inhabited α] (p : α → Bool) (b : ℕ → α) (n g : ℕ)
    (scr : ℕ → ℕ) :
    tileTrueOff p b n g scr = ∑ t ∈ Finset.range SIMD_w, tileFlagT p b n g t := by
  unfold tileTrueOff
  rw [tileScanT_spec p b n g scr (SIMD_w - 1) (by decide)]
  have h63 : SIMD_w - 1 = 63 := rfl
  have h64 : Finset.range SIMD_w = Finset.range (63 + 1) := rfl
  rw [h63, h64, Finset.sum_range_succ _ 63]

theorem tileFalseOff_eq {α : Type*} [Inhabited α] (p : α → Bool) (b : ℕ → α) (n g : ℕ)
    (scr : ℕ → ℕ) :
    tileFalseOff p b n g scr = ∑ t ∈ Finset.range SIMD_w, tileFlagF p b n g t := by
  unfold tileFalseOff
  rw [tileScanF_spec p b n g scr (SIMD_w - 1) (by decide)]
  have h63 : SIMD_w - 1 = 63 := rfl
  have h64 : Finset.range SIMD_w = Finset.range (63 + 1) := rfl
  rw [h63, h64, Finset.sum_range_succ _ 63]

theorem writeFold_spec {α : Type*} (step : (ℕ → α) → ℕ → (ℕ → α)) (c : ℕ → Prop)
    [DecidablePred c] (v : ℕ → α) (base : ℕ)
    (hstep : ∀ (o : ℕ → α) (j : ℕ), j < SIMD_w → step o j =
      if c j then
        write o (base + ∑ t ∈ Finset.range j, (if c t then 1 else 0)) (v j)
      else o) :
    ∀ (k j : ℕ), j + k = SIMD_w → ∀ o : ℕ → α,
      (∀ i : ℕ,
        (i < base + (∑ t ∈ Finset.range j, if c t then 1 else 0) ∨
          base + (∑ t ∈ Finset.range SIMD_w, if c t then 1 else 0) ≤ i) →
        List.foldl step o (List.range' j k) i = o i) ∧
      List.map (List.foldl step o (List.range' j k))
          (List.range' (base + ∑ t ∈ Finset.range j, (if c t then 1 else 0))
            ((∑ t ∈ Finset.range SIMD_w, (if c t then 1 else 0)) -
              ∑ t ∈ Finset.range j, (if c t then 1 else 0))) =
        List.filterMap (fun t => if c t then some (v t) else none) (List.range' j k) := by
  intro k
  induction k with
  | zero =>
    intro j hj o
    have hj' : j = SIMD_w := by omega
    subst hj'
    constructor
    · intro i _
      rfl
    · rw [Nat.sub_self]
      rfl
  | succ k ih =>
    intro j hj o
    have hjlt : j < SIMD_w := by omega
    rw [List.range'_succ, List.foldl_cons]
    have hsum : (∑ t ∈ Finset.range (j + 1), (if c t then (1:ℕ) else 0)) =
        (∑ t ∈ Finset.range j, (if c t then 1 else 0)) + (if c j then 1 else 0) :=
      Finset.sum_range_succ _ j
    have hmono : (∑ t ∈ Finset.range (j + 1), (if c t then (1:ℕ) else 0)) ≤
        ∑ t ∈ Finset.range SIMD_w, (if c t then 1 else 0) :=
      Finset.sum_le_sum_of_subset (Finset.range_subset.mpr (by omega))
    by_cases hc : c j
    · rw [hstep o j hjlt, if_pos hc]
      rw [if_pos hc] at hsum
      obtain ⟨ih1, ih2⟩ := ih (j + 1) (by omega)
        (write o (base + ∑ t ∈ Finset.range j, (if c t then 1 else 0)) (v j))
      constructor
      · intro i hi
        rw [ih1 i (by omega)]
        exact write_other o (v j) (by omega)
      · have hlen : (∑ t ∈ Finset.range SIMD_w, (if c t then (1:ℕ) else 0)) -
            (∑ t ∈ Finset.range j, (if c t then 1 else 0)) =
            ((∑ t ∈ Finset.range SIMD_w, (if c t then 1 else 0)) -
              ∑ t ∈ Finset.range (j + 1), (if c t then 1 else 0)) + 1 := by omega
        rw [hlen, List.range'_succ, List.map_cons]
        have hhead : List.foldl step
            (write o (base + ∑ t ∈ Finset.range j, (if c t then 1 else 0)) (v j))
            (List.range' (j + 1) k)
            (base + ∑ t ∈ Finset.range j, (if c t then 1 else 0)) =
            v j := by
          rw [ih1 _ (by omega)]
          exact write_self o _ (v j)
        rw [hhead]
        have hpos : base + (∑ t ∈ Finset.range j, (if c t then (1:ℕ) else 0)) + 1 =
            base + ∑ t ∈ Finset.range (j + 1), (if c t then 1 else 0) := by omega
        rw [hpos, ih2,
          List.filterMap_cons_some (f := fun t => if c t then some (v t) else none)
            (if_pos hc)]
    · rw [hstep o j hjlt, if_neg hc]
      have hsum' : (∑ t ∈ Finset.range (j + 1), (if c t then (1:ℕ) else 0)) =
          ∑ t ∈ Finset.range j, (if c t then 1 else 0) := by
        rw [hsum, if_neg hc]
        omega
      obtain ⟨ih1, ih2⟩ := ih (j + 1) (by omega) o
      rw [hsum'] at ih1 ih2
      refine ⟨fun i hi => ih1 i hi, ?_⟩
      rw [ih2, List.filterMap_cons_none (f := fun t => if c t then some (v t) else none)
        (if_neg hc)]

theorem cntT_chunk {α : Type*} [Inhabited α] (p : α → Bool) (b : ℕ → α) (n g : ℕ) :
    cntT p b n (SIMD_w * (g + 1)) =
      cntT p b n (SIMD_w * g) + ∑ j ∈ Finset.range SIMD_w, tileFlagT p b n g j := by
  unfold cntT
  have hmul : SIMD_w * (g + 1) = SIMD_w * g + SIMD_w := by ring
  have hc : (∑ j ∈ Finset.range SIMD_w, tileFlagT p b n g j) =
      ∑ j ∈ Finset.range SIMD_w,
        (if SIMD_w * g + j < n ∧ p (b (SIMD_w * g + j)) then (1:ℕ) else 0) :=
    Finset.sum_congr rfl fun j _ => tileFlagT_eq p b n g j
  rw [hmul, Finset.sum_range_add, hc]

theorem cntF_chunk {α : Type*} [Inhabited α] (p : α → Bool) (b : ℕ → α) (n g : ℕ) :
    cntF p b n (SIMD_w * (g + 1)) =
      cntF p b n (SIMD_w * g) + ∑ j ∈ Finset.range SIMD_w, tileFlagF p b n g j := by
  unfold cntF
  have hmul : SIMD_w * (g + 1) = SIMD_w * g + SIMD_w := by ring
  have hc : (∑ j ∈ Finset.range SIMD_w, tileFlagF p b n g j) =
      ∑ j ∈ Finset.range SIMD_w,
        (if SIMD_w * g + j < n ∧ ¬ p (b (SIMD_w * g + j)) then (1:ℕ) else 0) :=
    Finset.sum_congr rfl fun j _ => tileFlagF_eq p b n g j
  rw [hmul, Finset.sum_range_add, hc]

theorem cntT_tile {α : Type*} [Inhabited α] (p : α → Bool) (b : ℕ → α) (n g : ℕ)
    (scr : ℕ → ℕ) :
    cntT p b n (SIMD_w * (g + 1)) =
      cntT p b n (SIMD_w * g) + tileTrueOff p b n g scr := by
  rw [cntT_chunk, tileTrueOff_eq]

theorem cntF_tile {α : Type*} [Inhabited α] (p : α → Bool) (b : ℕ → α) (n g : ℕ)
    (scr : ℕ → ℕ) :
    cntF p b n (SIMD_w * (g + 1)) =
      cntF p b n (SIMD_w * g) + tileFalseOff p b n g scr := by
  rw [cntF_chunk, tileFalseOff_eq]

theorem cntT_succ {α : Type*} (p : α → Bool) (b : ℕ → α) (n M : ℕ) :
    cntT p b n (M + 1) = cntT p b n M + (if M < n ∧ p (b M) then 1 else 0) := by
  unfold cntT
  exact Finset.sum_range_succ _ M

theorem cntF_succ {α : Type*} (p : α → Bool) (b : ℕ → α) (n M : ℕ) :
    cntF p b n (M + 1) = cntF p b n M + (if M < n ∧ ¬ p (b M) then 1 else 0) := by
  unfold cntF
  exact Finset.sum_range_succ _ M

theorem cntT_add_cntF {α : Type*} (p : α → Bool) (b : ℕ → α) (n : ℕ) :
    ∀ M, cntT p b n M + cntF p b n M = min M n := by
  intro M
  induction M with
  | zero => simp [cntT, cntF]
  | succ M ih =>
    rw [cntT_succ, cntF_succ]
    by_cases h : M < n
    · have hm1 : min M n = M := min_eq_left (by omega)
      have hm2 : min (M + 1) n = M + 1 := min_eq_left (by omega)
      rw [hm1] at ih
      rw [hm2]
      by_cases h2 : p (b M)
      · rw [if_pos ⟨h, h2⟩, if_neg (by tauto)]
        omega
      · rw [if_neg (by tauto), if_pos ⟨h, h2⟩]
        omega
    · have hm1 : min M n = n := min_eq_right (by omega)
      have hm2 : min (M + 1) n = n := min_eq_right (by omega)
      rw [hm1] at ih
      rw [hm2, if_neg (by tauto), if_neg (by tauto)]
      omega

theorem cntT_mono {α : Type*} (p : α → Bool) (b : ℕ → α) (n : ℕ) {M M' : ℕ}
    (h : M ≤ M') : cntT p b n M ≤ cntT p b n M' := by
  unfold cntT
  exact Finset.sum_le_sum_of_subset (Finset.range_subset.mpr h)

theorem cntF_mono {α : Type*} (p : α → Bool) (b : ℕ → α) (n : ℕ) {M M' : ℕ}
    (h : M ≤ M') : cntF p b n M ≤ cntF p b n M' := by
  unfold cntF
  exact Finset.sum_le_sum_of_subset (Finset.range_subset.mpr h)

theorem cntT_stable {α : Type*} (p : α → Bool) (b : ℕ → α) (n : ℕ) :
    ∀ M, n ≤ M → cntT p b n M = cntT p b n n := by
  intro M
  induction M with
  | zero =>
    intro h
    have h0 : n = 0 := by omega
    rw [h0]
  | succ M ih =>
    intro h
    by_cases h2 : n = M + 1
    · rw [h2]
    · rw [cntT_succ, if_neg (by rintro ⟨h3, -⟩; omega), ih (by omega)]
      omega

theorem cntF_stable {α : Type*} (p : α → Bool) (b : ℕ → α) (n : ℕ) :
    ∀ M, n ≤ M → cntF p b n M = cntF p b n n := by
  intro M
  induction M with
  | zero =>
    intro h
    have h0 : n = 0 := by omega
    rw [h0]
  | succ M ih =>
    intro h
    by_cases h2 : n = M + 1
    · rw [h2]
    · rw [cntF_succ, if_neg (by rintro ⟨h3, -⟩; omega), ih (by omega)]
      omega

theorem keptT_succ {α : Type*} (p : α → Bool) (b : ℕ → α) (n M : ℕ) :
    keptT p b n (M + 1) =
      keptT p b n M ++ (if M < n ∧ p (b M) then [b M] else []) := by
  unfold keptT
  rw [List.range_succ, List.filterMap_append]
  congr 1
  by_cases h : M < n ∧ p (b M)
  · rw [List.filterMap_cons_some
      (f := fun t => if t < n ∧ p (b t) then some (b t) else none) (if_pos h),
      List.filterMap_nil, if_pos h]
  · rw [List.filterMap_cons_none
      (f := fun t => if t < n ∧ p (b t) then some (b t) else none) (if_neg h),
      List.filterMap_nil, if_neg h]

theorem keptF_succ {α : Type*} (p : α → Bool) (b : ℕ → α) (n M : ℕ) :
    keptF p b n (M + 1) =
      keptF p b n M ++ (if M < n ∧ ¬ p (b M) then [b M] else []) := by
  unfold keptF
  rw [List.range_succ, List.filterMap_append]
  congr 1
  by_cases h : M < n ∧ ¬ p (b M)
  · rw [List.filterMap_cons_some
      (f := fun t => if t < n ∧ ¬ p (b t) then some (b t) else none) (if_pos h),
      List.filterMap_nil, if_pos h]
  · rw [List.filterMap_cons_none
      (f := fun t => if t < n ∧ ¬ p (b t) then some (b t) else none) (if_neg h),
      List.filterMap_nil, if_neg h]

theorem keptT_stable {α : Type*} (p : α → Bool) (b : ℕ → α) (n : ℕ) :
    ∀ M, n ≤ M → keptT p b n M = keptT p b n n := by
  intro M
  induction M with
  | zero =>
    intro h
    have h0 : n = 0 := by omega
    rw [h0]
  | succ M ih =>
    intro h
    by_cases h2 : n = M + 1
    · rw [h2]
    · rw [keptT_succ, if_neg (by rintro ⟨h3, -⟩; omega), List.append_nil, ih (by omega)]

theorem keptF_stable {α : Type*} (p : α → Bool) (b : ℕ → α) (n : ℕ) :
    ∀ M, n ≤ M → keptF p b n M = keptF p b n n := by
  intro M
  induction M with
  | zero =>
    intro h
    have h0 : n = 0 := by omega
    rw [h0]
  | succ M ih =>
    intro h
    by_cases h2 : n = M + 1
    · rw [h2]
    · rw [keptF_succ, if_neg (by rintro ⟨h3, -⟩; omega), List.append_nil, ih (by omega)]

theorem keptT_length {α : Type*} (p : α → Bool) (b : ℕ → α) (n : ℕ) :
    ∀ M, (keptT p b n M).length = cntT p b n M := by
  intro M
  induction M with
  | zero => simp [keptT, cntT]
  | succ M ih =>
    rw [keptT_succ, cntT_succ, List.length_append, ih]
    by_cases h : M < n ∧ p (b M)
    · rw [if_pos h, if_pos h]
      rfl
    · rw [if_neg h, if_neg h]
      rfl

theorem keptT_chunk_append {α : Type*} (p : α → Bool) (b : ℕ → α) (n g : ℕ) :
    keptT p b n (SIMD_w * (g + 1)) = keptT p b n (SIMD_w * g) ++ keptTChunk p b n g := by
  unfold keptT keptTChunk
  have hmul : SIMD_w * (g + 1) = SIMD_w * g + SIMD_w := by ring
  rw [hmul, List.range_add, List.filterMap_append, List.range'_eq_map_range]

theorem keptF_chunk_append {α : Type*} (p : α → Bool) (b : ℕ → α) (n g : ℕ) :
    keptF p b n (SIMD_w * (g + 1)) = keptF p b n (SIMD_w * g) ++ keptFChunk p b n g := by
  unfold keptF keptFChunk
  have hmul : SIMD_w * (g + 1) = SIMD_w * g + SIMD_w := by ring
  rw [hmul, List.range_add, List.filterMap_append, List.range'_eq_map_range]

theorem revFalse_succ {α : Type*} (p : α → Bool) (b : ℕ → α) (n g : ℕ) :
    revFalse p b n (g + 1) = keptFChunk p b n g ++ revFalse p b n g := by
  unfold revFalse
  rw [List.range_succ, List.map_append, List.reverse_append, List.flatten_append]
  simp

theorem sum_valid (A n : ℕ) :
    ∀ W : ℕ, (∑ j ∈ Finset.range W, if A + j < n then (1:ℕ) else 0) = min W (n - A) := by
  intro W
  induction W with
  | zero => simp
  | succ W ih =>
    rw [Finset.sum_range_succ, ih]
    by_cases h : A + W < n
    · have hm1 : min W (n - A) = W := min_eq_left (by omega)
      have hm2 : min (W + 1) (n - A) = W + 1 := min_eq_left (by omega)
      rw [if_pos h, hm1, hm2]
    · have hm1 : min W (n - A) = n - A := min_eq_right (by omega)
      have hm2 : min (W + 1) (n - A) = n - A := min_eq_right (by omega)
      rw [if_neg h, hm1, hm2, add_zero]

theorem tileOff_add {α : Type*} [Inhabited α] (p : α → Bool) (b : ℕ → α) (n g : ℕ)
    (scr : ℕ → ℕ) :
    tileTrueOff p b n g scr + tileFalseOff p b n g scr = min SIMD_w (n - SIMD_w * g) := by
  rw [tileTrueOff_eq, tileFalseOff_eq, ← Finset.sum_add_distrib]
  have h : ∀ j ∈ Finset.range SIMD_w,
      tileFlagT p b n g j + tileFlagF p b n g j =
        (if SIMD_w * g + j < n then 1 else 0) := by
    intro j _
    rw [tileFlagT_eq, tileFlagF_eq]
    by_cases h1 : SIMD_w * g + j < n
    · by_cases h2 : p (b (SIMD_w * g + j))
      · rw [if_pos ⟨h1, h2⟩, if_neg (by tauto), if_pos h1]
      · rw [if_neg (by tauto), if_pos ⟨h1, h2⟩, if_pos h1]
    · rw [if_neg (by tauto), if_neg (by tauto), if_neg h1]
  rw [Finset.sum_congr rfl h]
  exact sum_valid (SIMD_w * g) n SIMD_w

theorem keptTChunk_eq_filterMap {α : Type*} [Inhabited α] (p : α → Bool) (b : ℕ → α)
    (n g : ℕ) :
    keptTChunk p b n g =
      List.filterMap
        (fun j => if SIMD_w * g + j < n ∧ p (tileTmp b n g j) then
          some (tileTmp b n g j) else none)
        (List.range SIMD_w) := by
  unfold keptTChunk
  rw [List.range'_eq_map_range, List.filterMap_map]
  congr 1
  funext j
  show (if SIMD_w * g + j < n ∧ p (b (SIMD_w * g + j)) then
    some (b (SIMD_w * g + j)) else none) = _
  unfold tileTmp
  by_cases h : SIMD_w * g + j < n
  · simp only [if_pos h]
  · rw [if_neg (by tauto), if_neg (by tauto)]

theorem keptFChunk_eq_filterMap {α : Type*} [Inhabited α] (p : α → Bool) (b : ℕ → α)
    (n g : ℕ) :
    keptFChunk p b n g =
      List.filterMap
        (fun j => if SIMD_w * g + j < n ∧ ¬ p (tileTmp b n g j) then
          some (tileTmp b n g j) else none)
        (List.range SIMD_w) := by
  unfold keptFChunk
  rw [List.range'_eq_map_range, List.filterMap_map]
  congr 1
  funext j
  show (if SIMD_w * g + j < n ∧ ¬ p (b (SIMD_w * g + j)) then
    some (b (SIMD_w * g + j)) else none) = _
  unfold tileTmp
  by_cases h : SIMD_w * g + j < n
  · simp only [if_pos h]
  · rw [if_neg (by tauto), if_neg (by tauto)]

theorem partitionTile_tc {α : Type*} [Inhabited α] (p : α → Bool) (b : ℕ → α) (n : ℕ)
    (scr : ℕ → ℕ) (g : ℕ) (s : PartState α) :
    (partitionTile p b n scr g s).tc = s.tc + tileTrueOff p b n g scr := rfl

theorem partitionTile_fc {α : Type*} [Inhabited α] (p : α → Bool) (b : ℕ → α) (n : ℕ)
    (scr : ℕ → ℕ) (g : ℕ) (s : PartState α) :
    (partitionTile p b n scr g s).fc = s.fc - tileFalseOff p b n g scr := rfl

theorem partitionTile_out {α : Type*} [Inhabited α] (p : α → Bool) (b : ℕ → α) (n : ℕ)
    (scr : ℕ → ℕ) (g : ℕ) (s : PartState α) :
    (partitionTile p b n scr g s).out =
      List.foldl
        (fun o j =>
          if SIMD_w * g + j < n then
            if p (tileTmp b n g j) then o
            else write o (s.fc - tileFalseOff p b n g scr + tileScanF p b n g scr j)
              (tileTmp b n g j)
          else o)
        (List.foldl
          (fun o j =>
            if SIMD_w * g + j < n then
              if p (tileTmp b n g j) then
                write o (s.tc + tileScanT p b n g scr j) (tileTmp b n g j)
              else o
            else o)
          s.out (List.range SIMD_w))
        (List.range SIMD_w) := rfl

theorem foldT_spec {α : Type*} [Inhabited α] (p : α → Bool) (b : ℕ → α) (n g : ℕ)
    (scr : ℕ → ℕ) (base : ℕ) (o : ℕ → α) :
    (∀ i : ℕ, (i < base ∨ base + tileTrueOff p b n g scr ≤ i) →
      List.foldl
        (fun o j =>
          if SIMD_w * g + j < n then
            if p (tileTmp b n g j) then
              write o (base + tileScanT p b n g scr j) (tileTmp b n g j)
            else o
          else o)
        o (List.range SIMD_w) i = o i) ∧
    List.map
        (List.foldl
          (fun o j =>
            if SIMD_w * g + j < n then
              if p (tileTmp b n g j) then
                write o (base + tileScanT p b n g scr j) (tileTmp b n g j)
              else o
            else o)
          o (List.range SIMD_w))
        (List.range' base (tileTrueOff p b n g scr)) = keptTChunk p b n g := by
  have hoff : tileTrueOff p b n g scr =
      ∑ t ∈ Finset.range SIMD_w,
        (if SIMD_w * g + t < n ∧ p (tileTmp b n g t) then 1 else 0) := by
    rw [tileTrueOff_eq]
    exact Finset.sum_congr rfl fun t _ => tileFlagT_eq_c p b n g t
  have hstep : ∀ (o' : ℕ → α) (j : ℕ), j < SIMD_w →
      (fun o j =>
        if SIMD_w * g + j < n then
          if p (tileTmp b n g j) then
            write o (base + tileScanT p b n g scr j) (tileTmp b n g j)
          else o
        else o) o' j =
      if SIMD_w * g + j < n ∧ p (tileTmp b n g j) then
        write o' (base + ∑ t ∈ Finset.range j,
          (if SIMD_w * g + t < n ∧ p (tileTmp b n g t) then 1 else 0)) (tileTmp b n g j)
      else o' := by
    intro o' j hj
    show (if SIMD_w * g + j < n then _ else o') = _
    by_cases h1 : SIMD_w * g + j < n
    · rw [if_pos h1]
      by_cases h2 : p (tileTmp b n g j)
      · rw [if_pos h2, if_pos ⟨h1, h2⟩, tileScanT_spec p b n g scr j hj]
        have hcsum : (∑ t ∈ Finset.range j, tileFlagT p b n g t) =
            ∑ t ∈ Finset.range j,
              (if SIMD_w * g + t < n ∧ p (tileTmp b n g t) then (1:ℕ) else 0) :=
          Finset.sum_congr rfl fun t _ => tileFlagT_eq_c p b n g t
        rw [hcsum]
      · rw [if_neg h2, if_neg (by tauto)]
    · rw [if_neg h1, if_neg (by tauto)]
  obtain ⟨hw1, hw2⟩ := writeFold_spec
    (fun o j => if SIMD_w * g + j < n then
        (if p (tileTmp b n g j) then
          write o (base + tileScanT p b n g scr j) (tileTmp b n g j) else o)
      else o)
    (fun j => SIMD_w * g + j < n ∧ p (tileTmp b n g j))
    (tileTmp b n g) base hstep SIMD_w 0 (by omega) o
  rw [← List.range_eq_range'] at hw1 hw2
  have e0 : (∑ t ∈ Finset.range 0,
      if SIMD_w * g + t < n ∧ p (tileTmp b n g t) then (1:ℕ) else 0) = 0 :=
    Finset.sum_range_zero _
  constructor
  · intro i hi
    exact hw1 i (by omega)
  · rw [e0, Nat.add_zero, Nat.sub_zero] at hw2
    rw [keptTChunk_eq_filterMap, hoff]
    exact hw2

theorem foldF_spec {α : Type*} [Inhabited α] (p : α → Bool) (b : ℕ → α) (n g : ℕ)
    (scr : ℕ → ℕ) (base : ℕ) (o : ℕ → α) :
    (∀ i : ℕ, (i < base ∨ base + tileFalseOff p b n g scr ≤ i) →
      List.foldl
        (fun o j =>
          if SIMD_w * g + j < n then
            if p (tileTmp b n g j) then o
            else write o (base + tileScanF p b n g scr j) (tileTmp b n g j)
          else o)
        o (List.range SIMD_w) i = o i) ∧
    List.map
        (List.foldl
          (fun o j =>
            if SIMD_w * g + j < n then
              if p (tileTmp b n g j) then o
              else write o (base + tileScanF p b n g scr j) (tileTmp b n g j)
            else o)
          o (List.range SIMD_w))
        (List.range' base (tileFalseOff p b n g scr)) = keptFChunk p b n g := by
  have hoff : tileFalseOff p b n g scr =
      ∑ t ∈ Finset.range SIMD_w,
        (if SIMD_w * g + t < n ∧ ¬ p (tileTmp b n g t) then 1 else 0) := by
    rw [tileFalseOff_eq]
    exact Finset.sum_congr rfl fun t _ => tileFlagF_eq_c p b n g t
  have hstep : ∀ (o' : ℕ → α) (j : ℕ), j < SIMD_w →
      (fun o j =>
        if SIMD_w * g + j < n then
          if p (tileTmp b n g j) then o
          else write o (base + tileScanF p b n g scr j) (tileTmp b n g j)
        else o) o' j =
      if SIMD_w * g + j < n ∧ ¬ p (tileTmp b n g j) then
        write o' (base + ∑ t ∈ Finset.range j,
          (if SIMD_w * g + t < n ∧ ¬ p (tileTmp b n g t) then 1 else 0)) (tileTmp b n g j)
      else o' := by
    intro o' j hj
    show (if SIMD_w * g + j < n then _ else o') = _
    by_cases h1 : SIMD_w * g + j < n
    · rw [if_pos h1]
      by_cases h2 : p (tileTmp b n g j)
      · rw [if_pos h2, if_neg (by tauto)]
      · rw [if_neg h2, if_pos ⟨h1, h2⟩, tileScanF_spec p b n g scr j hj]
        have hcsum : (∑ t ∈ Finset.range j, tileFlagF p b n g t) =
            ∑ t ∈ Finset.range j,
              (if SIMD_w * g + t < n ∧ ¬ p (tileTmp b n g t) then (1:ℕ) else 0) :=
          Finset.sum_congr rfl fun t _ => tileFlagF_eq_c p b n g t
        rw [hcsum]
    · rw [if_neg h1, if_neg (by tauto)]
  obtain ⟨hw1, hw2⟩ := writeFold_spec
    (fun o j => if SIMD_w * g + j < n then
        (if p (tileTmp b n g j) then o
          else write o (base + tileScanF p b n g scr j) (tileTmp b n g j))
      else o)
    (fun j => SIMD_w * g + j < n ∧ ¬ p (tileTmp b n g j))
    (tileTmp b n g) base hstep SIMD_w 0 (by omega) o
  rw [← List.range_eq_range'] at hw1 hw2
  have e0 : (∑ t ∈ Finset.range 0,
      if SIMD_w * g + t < n ∧ ¬ p (tileTmp b n g t) then (1:ℕ) else 0) = 0 :=
    Finset.sum_range_zero _
  constructor
  · intro i hi
    exact hw1 i (by omega)
  · rw [e0, Nat.add_zero, Nat.sub_zero] at hw2
    rw [keptFChunk_eq_filterMap, hoff]
    exact hw2

theorem partitionTile_step {α : Type*} [Inhabited α] (p : α → Bool) (b : ℕ → α)
    (n : ℕ) (scr : ℕ → ℕ) (g : ℕ) (s : PartState α)
    (htc : s.tc = cntT p b n (SIMD_w * g))
    (hfc : s.fc = n - cntF p b n (SIMD_w * g))
    (hT : List.map s.out (List.range s.tc) = keptT p b n (SIMD_w * g))
    (hF : List.map s.out (List.range' s.fc (n - s.fc)) = revFalse p b n g) :
    (partitionTile p b n scr g s).tc = cntT p b n (SIMD_w * (g + 1)) ∧
    (partitionTile p b n scr g s).fc = n - cntF p b n (SIMD_w * (g + 1)) ∧
    List.map (partitionTile p b n scr g s).out
        (List.range (partitionTile p b n scr g s).tc) =
      keptT p b n (SIMD_w * (g + 1)) ∧
    List.map (partitionTile p b n scr g s).out
        (List.range' (partitionTile p b n scr g s).fc
          (n - (partitionTile p b n scr g s).fc)) =
      revFalse p b n (g + 1) := by
  have hTadd := cntT_tile p b n g scr
  have hFadd := cntF_tile p b n g scr
  have hsum1 := cntT_add_cntF p b n (SIMD_w * (g + 1))
  have hsum0 := cntT_add_cntF p b n (SIMD_w * g)
  have hminle : min (SIMD_w * (g + 1)) n ≤ n := min_le_right _ _
  have hminle0 : min (SIMD_w * g) n ≤ n := min_le_right _ _
  have hord1 : s.tc + tileTrueOff p b n g scr ≤ s.fc - tileFalseOff p b n g scr := by
    omega
  have hord2 : tileFalseOff p b n g scr ≤ s.fc := by omega
  have hfcn : s.fc ≤ n := by omega
  obtain ⟨hT1, hT2⟩ := foldT_spec p b n g scr s.tc s.out
  obtain ⟨hF1, hF2⟩ := foldF_spec p b n g scr (s.fc - tileFalseOff p b n g scr)
    (List.foldl
      (fun o j =>
        if SIMD_w * g + j < n then
          if p (tileTmp b n g j) then
            write o (s.tc + tileScanT p b n g scr j) (tileTmp b n g j)
          else o
        else o)
      s.out (List.range SIMD_w))
  refine ⟨by rw [partitionTile_tc]; omega, by rw [partitionTile_fc]; omega, ?_, ?_⟩
  · rw [partitionTile_tc, partitionTile_out]
    generalize hOT : List.foldl
      (fun o j =>
        if SIMD_w * g + j < n then
          if p (tileTmp b n g j) then
            write o (s.tc + tileScanT p b n g scr j) (tileTmp b n g j)
          else o
        else o)
      s.out (List.range SIMD_w) = OT at hT1 hT2 hF1 hF2 ⊢
    generalize hOF : List.foldl
      (fun o j =>
        if SIMD_w * g + j < n then
          if p (tileTmp b n g j) then o
          else write o (s.fc - tileFalseOff p b n g scr + tileScanF p b n g scr j)
            (tileTmp b n g j)
        else o)
      OT (List.range SIMD_w) = OF at hF1 hF2 ⊢
    have hsplit : List.range (s.tc + tileTrueOff p b n g scr) =
        List.range s.tc ++ List.range' s.tc (tileTrueOff p b n g scr) := by
      rw [List.range_add, List.range'_eq_map_range]
    rw [hsplit, List.map_append]
    have hm1 : List.map OF (List.range s.tc) = keptT p b n (SIMD_w * g) := by
      rw [← hT]
      refine List.map_congr_left fun i hi => ?_
      rw [List.mem_range] at hi
      rw [hF1 i (Or.inl (by omega)), hT1 i (Or.inl (by omega))]
    have hm2 : List.map OF (List.range' s.tc (tileTrueOff p b n g scr)) =
        keptTChunk p b n g := by
      rw [← hT2]
      refine List.map_congr_left fun i hi => ?_
      rw [List.mem_range'_1] at hi
      exact hF1 i (Or.inl (by omega))
    rw [hm1, hm2]
    exact (keptT_chunk_append p b n g).symm
  · rw [partitionTile_fc, partitionTile_out]
    generalize hOT : List.foldl
      (fun o j =>
        if SIMD_w * g + j < n then
          if p (tileTmp b n g j) then
            write o (s.tc + tileScanT p b n g scr j) (tileTmp b n g j)
          else o
        else o)
      s.out (List.range SIMD_w) = OT at hT1 hT2 hF1 hF2 ⊢
    generalize hOF : List.foldl
      (fun o j =>
        if SIMD_w * g + j < n then
          if p (tileTmp b n g j) then o
          else write o (s.fc - tileFalseOff p b n g scr + tileScanF p b n g scr j)
            (tileTmp b n g j)
        else o)
      OT (List.range SIMD_w) = OF at hF1 hF2 ⊢
    have hlen : n - (s.fc - tileFalseOff p b n g scr) =
        (n - s.fc) + tileFalseOff p b n g scr := by omega
    rw [hlen, ← List.range'_append (s.fc - tileFalseOff p b n g scr)
      (tileFalseOff p b n g scr) (n - s.fc) 1]
    have hb2 : s.fc - tileFalseOff p b n g scr + 1 * tileFalseOff p b n g scr = s.fc := by
      omega
    rw [hb2, List.map_append, hF2]
    have hm3 : List.map OF (List.range' s.fc (n - s.fc)) = revFalse p b n g := by
      rw [← hF]
      refine List.map_congr_left fun i hi => ?_
      rw [List.mem_range'_1] at hi
      rw [hF1 i (Or.inr (by omega)), hT1 i (Or.inr (by omega))]
    rw [hm3, revFalse_succ]

theorem partStates_invariant {α : Type*} [Inhabited α] (p : α → Bool) (b : ℕ → α)
    (n : ℕ) (scr : ℕ → ℕ) :
    ∀ g : ℕ,
      (partStates p b n scr g).tc = cntT p b n (SIMD_w * g) ∧
      (partStates p b n scr g).fc = n - cntF p b n (SIMD_w * g) ∧
      List.map (partStates p b n scr g).out (List.range (partStates p b n scr g).tc) =
        keptT p b n (SIMD_w * g) ∧
      List.map (partStates p b n scr g).out
          (List.range' (partStates p b n scr g).fc
            (n - (partStates p b n scr g).fc)) =
        revFalse p b n g := by
  intro g
  induction g with
  | zero =>
    refine ⟨by simp [partStates, cntT], by simp [partStates, cntF], ?_, ?_⟩
    · simp [partStates, keptT]
    · simp [partStates, revFalse]
  | succ g ihg =>
    obtain ⟨htc, hfc, hT, hF⟩ := ihg
    exact partitionTile_step p b n scr g (partStates p b n scr g) htc hfc hT hF

theorem flatten_reverse_perm {α : Type*} :
    ∀ L : List (List α), List.Perm (L.reverse.flatten) L.flatten := by
  intro L
  induction L with
  | nil => exact List.Perm.refl _
  | cons x L ih =>
    rw [List.reverse_cons, List.flatten_append, List.flatten_cons]
    refine List.Perm.trans List.perm_append_comm ?_
    simp only [List.flatten_nil, List.append_nil, List.flatten_cons]
    exact List.Perm.append_left x ih

theorem flatten_keptFChunks {α : Type*} (p : α → Bool) (b : ℕ → α) (n : ℕ) :
    ∀ G : ℕ,
      ((List.range G).map (keptFChunk p b n)).flatten = keptF p b n (SIMD_w * G) := by
  intro G
  induction G with
  | zero => simp [keptF]
  | succ G ih =>
    rw [List.range_succ, List.map_append, List.flatten_append, ih, keptF_chunk_append]
    simp

theorem revFalse_perm {α : Type*} (p : α → Bool) (b : ℕ → α) (n G : ℕ) :
    List.Perm (revFalse p b n G) (keptF p b n (SIMD_w * G)) := by
  unfold revFalse
  rw [← flatten_keptFChunks p b n G]
  exact flatten_reverse_perm _

theorem keptT_eq_filter {α : Type*} (p : α → Bool) (b : ℕ → α) (n : ℕ) :
    keptT p b n n = (List.map b (List.range n)).filter p := by
  unfold keptT
  have hgen : ∀ L : List ℕ, (∀ t ∈ L, t < n) →
      (L.filterMap fun t => if t < n ∧ p (b t) then some (b t) else none) =
        (List.map b L).filter p := by
    intro L
    induction L with
    | nil => intro _; rfl
    | cons x L ih =>
      intro hmem
      have hx : x < n := hmem x (List.mem_cons_self x L)
      rw [List.map_cons]
      by_cases hp : p (b x)
      · rw [List.filterMap_cons_some
          (f := fun t => if t < n ∧ p (b t) then some (b t) else none)
            (if_pos ⟨hx, hp⟩),
          List.filter_cons_of_pos hp,
          ih fun t ht => hmem t (List.mem_cons_of_mem x ht)]
      · rw [List.filterMap_cons_none
          (f := fun t => if t < n ∧ p (b t) then some (b t) else none)
            (if_neg (by tauto)),
          List.filter_cons_of_neg hp,
          ih fun t ht => hmem t (List.mem_cons_of_mem x ht)]
  exact hgen (List.range n) fun t ht => List.mem_range.mp ht

theorem keptF_eq_filter {α : Type*} (p : α → Bool) (b : ℕ → α) (n : ℕ) :
    keptF p b n n = (List.map b (List.range n)).filter (fun x => ! p x) := by
  unfold keptF
  have hgen : ∀ L : List ℕ, (∀ t ∈ L, t < n) →
      (L.filterMap fun t => if t < n ∧ ¬ p (b t) then some (b t) else none) =
        (List.map b L).filter (fun x => ! p x) := by
    intro L
    induction L with
    | nil => intro _; rfl
    | cons x L ih =>
      intro hmem
      have hx : x < n := hmem x (List.mem_cons_self x L)
      rw [List.map_cons]
      by_cases hp : p (b x)
      · rw [List.filterMap_cons_none
          (f := fun t => if t < n ∧ ¬ p (b t) then some (b t) else none)
            (if_neg (by tauto)),
          List.filter_cons_of_neg (by simp [hp]),
          ih fun t ht => hmem t (List.mem_cons_of_mem x ht)]
      · rw [List.filterMap_cons_some
          (f := fun t => if t < n ∧ ¬ p (b t) then some (b t) else none)
            (if_pos ⟨hx, hp⟩),
          List.filter_cons_of_pos (by simp [hp]),
          ih fun t ht => hmem t (List.mem_cons_of_mem x ht)]
  exact hgen (List.range n) fun t ht => List.mem_range.mp ht

theorem partition_snd {α : Type*} [Inhabited α] (p : α → Bool) (a : ℕ → α) (f l : ℕ)
    (scr : ℕ → ℕ) (h : f < l) :
    (partition p a f l scr).2 =
      f + (partStates p (fun i => a (f + i)) (l - f) scr (numTiles (l - f))).tc := by
  unfold partition
  rw [if_neg (by omega)]

theorem partition_fst {α : Type*} [Inhabited α] (p : α → Bool) (a : ℕ → α) (f l : ℕ)
    (scr : ℕ → ℕ) (h : f < l) (i : ℕ) :
    (partition p a f l scr).1 i =
      if f ≤ i ∧ i < l then
        (partStates p (fun i => a (f + i)) (l - f) scr (numTiles (l - f))).out (i - f)
      else a i := by
  unfold partition
  rw [if_neg (by omega)]

theorem numTiles_cover (n : ℕ) : n ≤ SIMD_w * numTiles n := by
  unfold numTiles SIMD_w
  omega

theorem partition_lists {α : Type*} [Inhabited α] (p : α → Bool) (b : ℕ → α) (n : ℕ)
    (scr : ℕ → ℕ) :
    List.map (partStates p b n scr (numTiles n)).out (List.range n) =
        (List.map b (List.range n)).filter p ++ revFalse p b n (numTiles n) ∧
      (partStates p b n scr (numTiles n)).tc =
        ((List.map b (List.range n)).filter p).length ∧
      (partStates p b n scr (numTiles n)).fc = (partStates p b n scr (numTiles n)).tc := by
  have hG := numTiles_cover n
  obtain ⟨htc, hfc, hT, hF⟩ := partStates_invariant p b n scr (numTiles n)
  rw [cntT_stable p b n _ hG] at htc
  rw [cntF_stable p b n _ hG] at hfc
  rw [keptT_stable p b n _ hG] at hT
  have hnn := cntT_add_cntF p b n n
  rw [min_self] at hnn
  have hlen : ((List.map b (List.range n)).filter p).length = cntT p b n n := by
    rw [← keptT_eq_filter]
    exact keptT_length p b n n
  refine ⟨?_, by omega, by omega⟩
  have h1 : (partStates p b n scr (numTiles n)).tc +
      (n - (partStates p b n scr (numTiles n)).tc) = n := by omega
  have hsplit := List.range_add (partStates p b n scr (numTiles n)).tc
    (n - (partStates p b n scr (numTiles n)).tc)
  rw [h1, ← List.range'_eq_map_range] at hsplit
  conv_lhs => rw [hsplit]
  rw [List.map_append, hT]
  have hfctc : (partStates p b n scr (numTiles n)).fc =
      (partStates p b n scr (numTiles n)).tc := by omega
  rw [← hfctc, hF, keptT_eq_filter]

theorem trueBlock_eq {α : Type*} [Inhabited α] (p : α → Bool) (b : ℕ → α) (n : ℕ)
    (scr : ℕ → ℕ) (g : ℕ) :
    trueBlock p b n scr g =
      Finset.Ico (cntT p b n (SIMD_w * g)) (cntT p b n (SIMD_w * (g + 1))) := by
  unfold trueBlock
  rw [(partStates_invariant p b n scr g).1, ← cntT_tile p b n g scr]

theorem falseBlock_eq {α : Type*} [Inhabited α] (p : α → Bool) (b : ℕ → α) (n : ℕ)
    (scr : ℕ → ℕ) (g : ℕ) :
    falseBlock p b n scr g =
      Finset.Ico (n - cntF p b n (SIMD_w * (g + 1))) (n - cntF p b n (SIMD_w * g)) := by
  unfold falseBlock
  rw [(partStates_invariant p b n scr g).2.1]
  have h1 : n - cntF p b n (SIMD_w * g) - tileFalseOff p b n g scr =
      n - cntF p b n (SIMD_w * (g + 1)) := by
    have h2 := cntF_tile p b n g scr
    omega
  rw [h1]

theorem trueBlocks_union {α : Type*} [Inhabited α] (p : α → Bool) (b : ℕ → α) (n : ℕ)
    (scr : ℕ → ℕ) :
    ∀ G, (Finset.range G).biUnion (trueBlock p b n scr) =
      Finset.Ico 0 (cntT p b n (SIMD_w * G)) := by
  intro G
  induction G with
  | zero => simp [cntT]
  | succ G ih =>
    rw [Finset.range_succ, Finset.biUnion_insert, ih, trueBlock_eq, Finset.union_comm]
    exact Finset.Ico_union_Ico_eq_Ico (Nat.zero_le _)
      (cntT_mono p b n (Nat.mul_le_mul_left SIMD_w (by omega)))

theorem falseBlocks_union {α : Type*} [Inhabited α] (p : α → Bool) (b : ℕ → α) (n : ℕ)
    (scr : ℕ → ℕ) :
    ∀ G, (Finset.range G).biUnion (falseBlock p b n scr) =
      Finset.Ico (n - cntF p b n (SIMD_w * G)) n := by
  intro G
  induction G with
  | zero => simp [cntF]
  | succ G ih =>
    rw [Finset.range_succ, Finset.biUnion_insert, ih, falseBlock_eq]
    have hmono : cntF p b n (SIMD_w * G) ≤ cntF p b n (SIMD_w * (G + 1)) :=
      cntF_mono p b n (Nat.mul_le_mul_left SIMD_w (by omega))
    exact Finset.Ico_union_Ico_eq_Ico (by omega) (Nat.sub_le n _)

/-- C1 fails of the source: for the length-192 data `t % 64` under the
predicate `x < 40`, every 64-lane chunk reserves exactly 40 true slots — the
first two conjuncts evaluate the faithfully embedded per-tile `fetch_add`
amount for tiles `0` and `2`.  The cursors are process-wide, so if tiles `0`
and `2` reserve before tile `1` (a legal schedule), tile `2`'s `fetch_add`
returns `40` and its reserved run `[40, 80)` straddles a block boundary: its
base lies in block `40 / SIMD_w = 0` — the only block whose lock
`acquire_block(blocks, tidx, true_idx / SIMD_w)` takes — while its last cell
lies in block `(40 + 40 - 1) / SIMD_w = 1`, which tile `1` has not yet
loaded.  The write pass then overwrites cells `64`–`79` of the original data
before their owner reads them, so the output is not a permutation of the
input and the claimed partition property fails on that schedule. -/
theorem C1_lock_straddle :
    tileTrueOff (fun x => decide (x < 40)) (fun t => t % 64) 192 0 (fun _ => 0) = 40 ∧
      tileTrueOff (fun x => decide (x < 40)) (fun t => t % 64) 192 2 (fun _ => 0) = 40 ∧
      (40 : ℕ) / SIMD_w = 0 ∧ (40 + 40 - 1) / SIMD_w = 1 := by
  refine ⟨?_, ?_, by decide, by decide⟩
  · rw [tileTrueOff_eq]
    decide
  · rw [tileTrueOff_eq]
    decide

/-- C6: on an empty range (`first ≥ last`), `reduce`, the two serial scans,
the tiled `scan` and `partition` all leave the data untouched and return the
range's end position. -/
theorem C6_empty_range {M : Type*} [AddCommMonoid M] {α : Type*} [Inhabited α]
    (am : ℕ → M) (ap : ℕ → α) (op : M → M → M) (junk : M) (tileDim : ℕ)
    (scr1 scr2 : ℕ → M) (p : α → Bool) (scr : ℕ → ℕ) (f l : ℕ) (h : f ≥ l) :
    reduce am f l = (am, l) ∧
      serial_scan am f l = (am, l) ∧
      serial_scan_op op junk am f l = (am, l) ∧
      scan tileDim am f l scr1 scr2 = (am, l) ∧
      partition p ap f l scr = (ap, l) := by
  unfold reduce serial_scan serial_scan_op scan partition
  exact ⟨if_pos h, if_pos h, if_pos h, if_pos h, if_pos h⟩

theorem C6_witness :
    (3 : ℕ) ≥ 3 ∧
      (reduce (fun i => (i : ℕ)) 3 3 = (fun i => (i : ℕ), 3) ∧
        serial_scan (fun i => (i : ℕ)) 3 3 = (fun i => (i : ℕ), 3) ∧
        serial_scan_op (fun x y => x + y) 0 (fun i => (i : ℕ)) 3 3 =
          (fun i => (i : ℕ), 3) ∧
        scan 4 (fun i => (i : ℕ)) 3 3 (fun _ => 0) (fun _ => 0) =
          (fun i => (i : ℕ), 3) ∧
        partition (fun x => decide (x = 0)) (fun i => (i : ℕ)) 3 3 (fun _ => 0) =
          (fun i => (i : ℕ), 3)) :=
  ⟨by decide, C6_empty_range (fun i => (i : ℕ)) (fun i => (i : ℕ)) (fun x y => x + y) 0 4
      (fun _ => 0) (fun _ => 0) (fun x => decide (x = 0)) (fun _ => 0) 3 3 (by decide)⟩

/-- C8: each tile's leader reserves once on each cursor, the two amounts add
up to the number of valid lanes in the tile's chunk, and over all tiles the
forward true reservations and backward false reservations are pairwise
disjoint and together cover exactly the output index space `[0, n)`. -/
theorem C8_reservations {α : Type*} [Inhabited α] (p : α → Bool) (b : ℕ → α)
    (n : ℕ) (scr : ℕ → ℕ) :
    (∀ g, tileTrueOff p b n g scr + tileFalseOff p b n g scr =
        min SIMD_w (n - SIMD_w * g)) ∧
      ((Finset.range (numTiles n)).biUnion (trueBlock p b n scr) ∪
          (Finset.range (numTiles n)).biUnion (falseBlock p b n scr)) =
        Finset.Ico 0 n ∧
      (∀ g1 g2, g1 ≠ g2 →
        Disjoint (trueBlock p b n scr g1) (trueBlock p b n scr g2)) ∧
      (∀ g1 g2, g1 ≠ g2 →
        Disjoint (falseBlock p b n scr g1) (falseBlock p b n scr g2)) ∧
      (∀ g1 g2, Disjoint (trueBlock p b n scr g1) (falseBlock p b n scr g2)) := by
  have hk := numTiles_cover n
  have hnn := cntT_add_cntF p b n n
  rw [min_self] at hnn
  refine ⟨fun g => tileOff_add p b n g scr, ?_, ?_, ?_, ?_⟩
  · rw [trueBlocks_union p b n scr, falseBlocks_union p b n scr,
      cntT_stable p b n _ hk, cntF_stable p b n _ hk]
    have hmid : n - cntF p b n n = cntT p b n n := by omega
    rw [hmid]
    exact Finset.Ico_union_Ico_eq_Ico (Nat.zero_le _) (by omega)
  · have key : ∀ h1 h2 : ℕ, h1 < h2 →
        Disjoint (trueBlock p b n scr h1) (trueBlock p b n scr h2) := by
      intro h1 h2 hlt
      rw [trueBlock_eq, trueBlock_eq]
      refine Finset.disjoint_left.mpr fun x hx hx2 => ?_
      rw [Finset.mem_Ico] at hx hx2
      have hm : cntT p b n (SIMD_w * (h1 + 1)) ≤ cntT p b n (SIMD_w * h2) :=
        cntT_mono p b n (Nat.mul_le_mul_left SIMD_w (by omega))
      omega
    intro g1 g2 hne
    rcases hne.lt_or_lt with hlt | hlt
    · exact key g1 g2 hlt
    · exact (key g2 g1 hlt).symm
  · have key : ∀ h1 h2 : ℕ, h1 < h2 →
        Disjoint (falseBlock p b n scr h1) (falseBlock p b n scr h2) := by
      intro h1 h2 hlt
      rw [falseBlock_eq, falseBlock_eq]
      refine Finset.disjoint_left.mpr fun x hx hx2 => ?_
      rw [Finset.mem_Ico] at hx hx2
      have hm : cntF p b n (SIMD_w * (h1 + 1)) ≤ cntF p b n (SIMD_w * h2) :=
        cntF_mono p b n (Nat.mul_le_mul_left SIMD_w (by omega))
      omega
    intro g1 g2 hne
    rcases hne.lt_or_lt with hlt | hlt
    · exact key g1 g2 hlt
    · exact (key g2 g1 hlt).symm
  · intro g1 g2
    rw [trueBlock_eq, falseBlock_eq]
    refine Finset.disjoint_left.mpr fun x hx hx2 => ?_
    rw [Finset.mem_Ico] at hx hx2
    have h1 : cntT p b n (SIMD_w * (g1 + 1)) ≤ cntT p b n n := by
      rcases Nat.le_total (SIMD_w * (g1 + 1)) n with hc | hc
      · exact cntT_mono p b n hc
      · rw [cntT_stable p b n _ hc]
    have h2 : cntF p b n (SIMD_w * (g2 + 1)) ≤ cntF p b n n := by
      rcases Nat.le_total (SIMD_w * (g2 + 1)) n with hc | hc
      · exact cntF_mono p b n hc
      · rw [cntF_stable p b n _ hc]
    omega

theorem C8_witness :
    (0 : ℕ) ≠ 1 ∧
      Disjoint (trueBlock (fun x => decide (x % 2 = 0)) exampleData 8 (fun _ => 0) 0)
        (trueBlock (fun x => decide (x % 2 = 0)) exampleData 8 (fun _ => 0) 1) :=
  ⟨by decide, (C8_reservations (fun x => decide (x % 2 = 0)) exampleData 8
      (fun _ => 0)).2.2.1 0 1 (by decide)⟩

/-- C10: on a non-empty range the two cursors meet: at termination
`falseCursor` equals `trueCursor`, the returned iterator is `f` plus that
common value `k`, and the backward false reservations fill exactly the
positions `[k, n)`. -/
theorem C10_cursors_meet {α : Type*} [Inhabited α] (p : α → Bool) (a : ℕ → α)
    (f l : ℕ) (scr : ℕ → ℕ) (hfl : f < l) :
    (partStates p (fun i => a (f + i)) (l - f) scr (numTiles (l - f))).fc =
        (partStates p (fun i => a (f + i)) (l - f) scr (numTiles (l - f))).tc ∧
      (partition p a f l scr).2 =
        f + (partStates p (fun i => a (f + i)) (l - f) scr (numTiles (l - f))).tc ∧
      (Finset.range (numTiles (l - f))).biUnion
          (falseBlock p (fun i => a (f + i)) (l - f) scr) =
        Finset.Ico
          (partStates p (fun i => a (f + i)) (l - f) scr (numTiles (l - f))).tc
          (l - f) := by
  obtain ⟨hlist, hlen, hfctc⟩ := partition_lists p (fun i => a (f + i)) (l - f) scr
  refine ⟨hfctc, partition_snd p a f l scr hfl, ?_⟩
  rw [falseBlocks_union p (fun i => a (f + i)) (l - f) scr (numTiles (l - f))]
  have hk := numTiles_cover (l - f)
  obtain ⟨htc, -, -, -⟩ :=
    partStates_invariant p (fun i => a (f + i)) (l - f) scr (numTiles (l - f))
  rw [cntT_stable p (fun i => a (f + i)) (l - f) _ hk] at htc
  rw [cntF_stable p (fun i => a (f + i)) (l - f) _ hk]
  have hnn := cntT_add_cntF p (fun i => a (f + i)) (l - f) (l - f)
  rw [min_self] at hnn
  have hval : (l - f) - cntF p (fun i => a (f + i)) (l - f) (l - f) =
      (partStates p (fun i => a (f + i)) (l - f) scr (numTiles (l - f))).tc := by
    omega
  rw [hval]

theorem C10_witness :
    (0 : ℕ) < 8 ∧
      (partStates (fun x => decide (x % 2 = 0)) (fun i => exampleData (0 + i)) (8 - 0)
            (fun _ => 0) (numTiles (8 - 0))).fc =
        (partStates (fun x => decide (x % 2 = 0)) (fun i => exampleData (0 + i)) (8 - 0)
            (fun _ => 0) (numTiles (8 - 0))).tc :=
  ⟨by decide, (C10_cursors_meet (fun x => decide (x % 2 = 0)) exampleData 0 8
      (fun _ => 0) (by decide)).1⟩

end experimental
